import Mathlib

/-!
Verification of the RLE / bit-packed hybrid boolean codec from
`src/util/rle-encoding.h` (classes `RleEncoder` and `RleDecoder`).

The encoder and decoder are shallowly embedded below, translated from the
C++ source.  The byte-level collaborators (`BitWriter`, `BitReader`,
`BitmapSize`) live in `util/bit-stream-utils.inline.h` and `util/bitmap.h`,
which are not part of this repository snapshot; they are modelled from the
specification's description of their byte/bit-level behaviour (LSB-first
bits, byte-aligned LEB128 varints, aligned byte writes, single-bit rewind).

Machine integers are modelled as `Nat`; the C++ counters are non-negative
in every reachable state and the claims exercise values far below 2^31.
`DCHECK` failures are modelled as a distinguished fatal result (`bad` /
`none`), matching the spec's "fatal invariant violation" taxonomy.
-/

namespace Rle

/-! ### Bit writer, modelled from the spec (section 4.1) -/

/-- Modelled from the spec: `BitWriter` of `util/bit-stream-utils.inline.h`
(not in the snapshot).  `bytes` is the growable byte buffer, `bitPos` the
write cursor in bits.  Bits are packed LSB-first within each byte. -/
structure BitWriter where
  bytes : List Nat
  bitPos : Nat
deriving Repr, DecidableEq

/-- Modelled from the spec: append one bit, LSB-first within each byte. -/
def BitWriter.PutBool (w : BitWriter) (b : Bool) : BitWriter :=
  let idx := w.bitPos / 8
  let bit := if b then 2 ^ (w.bitPos % 8) else 0
  if idx < w.bytes.length then
    { bytes := w.bytes.set idx (Nat.lor (w.bytes.getD idx 0) bit), bitPos := w.bitPos + 1 }
  else
    { bytes := w.bytes ++ [bit], bitPos := w.bitPos + 1 }

/-- Modelled from the spec: advance the write cursor to the next byte
boundary. -/
def BitWriter.Align (w : BitWriter) : BitWriter :=
  { w with bitPos := 8 * ((w.bitPos + 7) / 8) }

/-- Modelled from the spec: `PutAligned<uint8>`: flush to the next byte
boundary, then append one full byte. -/
def BitWriter.PutAligned (w : BitWriter) (v : Nat) : BitWriter :=
  let w := w.Align
  { bytes := w.bytes ++ [v % 256], bitPos := w.bitPos + 8 }

/-- Auxiliary structurally recursive loop for the LEB128 encoding; the
fuel never runs out when it is at least the number of base-128 digits. -/
def vlqBytesGo : Nat → Nat → List Nat
  | 0, n => [n]
  | fuel + 1, n => if n < 128 then [n] else (n % 128 + 128) :: vlqBytesGo fuel (n / 128)

/-- LEB128 / VLQ bytes of a natural number: little-endian 7-bit groups,
continuation bit in the MSB of every byte but the last. -/
def vlqBytes (n : Nat) : List Nat := vlqBytesGo n n

/-- Modelled from the spec: `PutVlqInt`: byte-aligned LEB128 write. -/
def BitWriter.PutVlqInt (w : BitWriter) (v : Nat) : BitWriter :=
  let w := w.Align
  { bytes := w.bytes ++ vlqBytes v, bitPos := w.bitPos + 8 * (vlqBytes v).length }

/-- Modelled from the spec: flush to the next byte boundary, allocate the
next byte as a placeholder, return its index, leave the cursor past it. -/
def BitWriter.GetByteIndexAndAdvance (w : BitWriter) : BitWriter × Nat :=
  let w := w.Align
  ({ bytes := w.bytes ++ [0], bitPos := w.bitPos + 8 }, w.bytes.length)

/-- Modelled from the spec: `BitmapSize` of `util/bitmap.h` (not in the
snapshot): number of bytes needed for `n` bits, `ceil(n / 8)`. -/
def bitmapSize (n : Nat) : Nat := (n + 7) / 8

/-! ### Encoder, translated from `RleEncoder` in `src/util/rle-encoding.h` -/

/-- State of `RleEncoder`.  `buffered_values` holds the valid prefix of the
C++ array `buffered_values_[8]` (`num_buffered_values_` is its length).
`indicators` is a ghost trace recording each literal indicator byte at the
moment `FlushLiteralRun` back-patches it (the value whose group count the
source guards with `DCHECK_LT(num_groups, 128)`); it is written exactly
where the source writes the indicator and read by no operation. -/
structure RleEncoder where
  w : BitWriter
  buffered_values : List Bool
  current_value : Bool
  repeat_count : Nat
  literal_count : Nat
  literal_indicator_byte : Option Nat
  indicators : List Nat
deriving Repr, DecidableEq

/-- The state established by `RleEncoder::Clear` (also the initial state). -/
def RleEncoder.Clear : RleEncoder :=
  { w := ⟨[], 0⟩, buffered_values := [], current_value := false,
    repeat_count := 0, literal_count := 0, literal_indicator_byte := none,
    indicators := [] }

/-- `RleEncoder::FlushLiteralRun`. -/
def RleEncoder.FlushLiteralRun (update_indicator_byte : Bool) (e : RleEncoder) :
    RleEncoder :=
  let pr : BitWriter × Nat :=
    match e.literal_indicator_byte with
    | some i => (e.w, i)
    | none => e.w.GetByteIndexAndAdvance
  let w := e.buffered_values.foldl BitWriter.PutBool pr.1
  let e1 := { e with w := w, buffered_values := [],
                     literal_indicator_byte := some pr.2 }
  if update_indicator_byte then
    let g := bitmapSize e1.literal_count
    { e1 with w := { e1.w with bytes := e1.w.bytes.set pr.2 (2 * g + 1) },
              literal_indicator_byte := none, literal_count := 0,
              indicators := e1.indicators ++ [2 * g + 1] }
  else e1

/-- `RleEncoder::FlushRepeatedRun`. -/
def RleEncoder.FlushRepeatedRun (e : RleEncoder) : RleEncoder :=
  { e with w := (e.w.PutVlqInt (2 * e.repeat_count)).PutAligned
                  (if e.current_value then 1 else 0),
           buffered_values := [], repeat_count := 0 }

/-- `RleEncoder::FlushBufferedValues`. -/
def RleEncoder.FlushBufferedValues (done : Bool) (e : RleEncoder) : RleEncoder :=
  if 8 ≤ e.repeat_count then
    let e1 := { e with buffered_values := [] }
    if e1.literal_count ≠ 0 then e1.FlushLiteralRun true else e1
  else
    let e1 := { e with literal_count := e.literal_count + e.buffered_values.length }
    let e2 := if 64 ≤ bitmapSize e1.literal_count + 1 then e1.FlushLiteralRun true
              else e1.FlushLiteralRun done
    { e2 with repeat_count := 0 }

/-- Append one value to the lookahead, flushing when it reaches 8 values
(the tail of the loop body of `RleEncoder::Put`). -/
def RleEncoder.PushBuffered (value : Bool) (e : RleEncoder) : RleEncoder :=
  let e1 := { e with buffered_values := e.buffered_values ++ [value] }
  if e1.buffered_values.length = 8 then e1.FlushBufferedValues false else e1

/-- One iteration of the `while (run_length--)` loop body of
`RleEncoder::Put`. -/
def RleEncoder.PutOne (value : Bool) (e : RleEncoder) : RleEncoder :=
  if e.current_value = value then
    let e1 := { e with repeat_count := e.repeat_count + 1 }
    if 8 < e1.repeat_count then e1 else e1.PushBuffered value
  else
    let e1 := if 8 ≤ e.repeat_count then e.FlushRepeatedRun else e
    let e2 := { e1 with repeat_count := 1, current_value := value }
    e2.PushBuffered value

/-- `RleEncoder::Put(value, run_length)`: the loop body run
`run_length` times. -/
def RleEncoder.Put (value : Bool) : Nat → RleEncoder → RleEncoder
  | 0, e => e
  | n + 1, e => Put value n (e.PutOne value)

/-- `RleEncoder::Flush`.  The returned byte count is `e.w.bytes.length`;
the model returns the final state. -/
def RleEncoder.Flush (e : RleEncoder) : RleEncoder :=
  if e.literal_count > 0 ∨ e.repeat_count > 0 ∨ e.buffered_values.length > 0 then
    if e.repeat_count > 0 ∧ (e.literal_count = 0 ∧
        (e.repeat_count = e.buffered_values.length ∨ e.buffered_values.length = 0)) then
      e.FlushRepeatedRun
    else
      { RleEncoder.FlushLiteralRun true
          { e with literal_count := e.literal_count + e.buffered_values.length }
        with repeat_count := 0 }
  else e

/-- Run a schedule of `Put` calls from a given state. -/
def runPuts (e : RleEncoder) (s : List (Bool × Nat)) : RleEncoder :=
  s.foldl (fun e p => RleEncoder.Put p.1 p.2 e) e

/-- Bytes produced by encoding a schedule of `Put` calls from `Clear`,
then calling `Flush`. -/
def encodeBytes (s : List (Bool × Nat)) : List Nat :=
  ((runPuts RleEncoder.Clear s).Flush).w.bytes

/-! ### Bit reader, modelled from the spec (section 4.1) -/

/-- Bit position of the next byte boundary at or after `pos`. -/
def alignPos (pos : Nat) : Nat := 8 * ((pos + 7) / 8)

/-- Modelled from the spec: `BitReader::GetBool`: read the bit at bit
position `pos` (LSB-first within each byte); fails past the end. -/
def getBoolR (bytes : List Nat) (pos : Nat) : Option Bool :=
  (bytes[pos / 8]?).map (fun b => b.testBit (pos % 8))

/-- Auxiliary loop for the LEB128 read: remaining byte budget, current
(aligned) bit position, current shift, accumulator. -/
def vlqGo (bytes : List Nat) : Nat → Nat → Nat → Nat → Option (Nat × Nat)
  | 0, _, _, _ => none
  | fuel + 1, p, shift, acc =>
    match bytes[p / 8]? with
    | none => none
    | some b =>
      if b < 128 then some (acc + b * 2 ^ shift, p + 8)
      else vlqGo bytes fuel (p + 8) (shift + 7) (acc + (b - 128) * 2 ^ shift)

/-- Modelled from the spec: `BitReader::GetVlqInt`: advance to the next
byte boundary, then read a LEB128 value of at most 5 bytes (32-bit range).
On failure the cursor is not advanced (the caller keeps its position). -/
def getVlqIntR (bytes : List Nat) (pos : Nat) : Option (Nat × Nat) :=
  vlqGo bytes 5 (alignPos pos) 0 0

/-- Read `n` consecutive bits starting at bit position `pos`. -/
def readBitsR (bytes : List Nat) : Nat → Nat → Option (List Bool)
  | 0, _ => some []
  | n + 1, pos =>
    match getBoolR bytes pos with
    | none => none
    | some b => (readBitsR bytes n (pos + 1)).map (b :: ·)

/-! ### Decoder, translated from `RleDecoder` in `src/util/rle-encoding.h` -/

/-- State of `RleDecoder`: the input bytes, the bit cursor of the embedded
`BitReader`, and the three run-tracking fields. -/
structure RleDecoder where
  bytes : List Nat
  pos : Nat
  current_value : Bool
  repeat_count : Nat
  literal_count : Nat
deriving Repr, DecidableEq

/-- The decoder constructed on a byte buffer. -/
def RleDecoder.init (bytes : List Nat) : RleDecoder :=
  { bytes := bytes, pos := 0, current_value := false,
    repeat_count := 0, literal_count := 0 }

/-- Result of a decoder operation: a value, a clean false return carrying
the (unchanged or final) state, or a fatal `DCHECK` violation. -/
inductive DecRes (α : Type) where
  | ok : α → DecRes α
  | eof : RleDecoder → DecRes α
  | bad : DecRes α
deriving DecidableEq, Repr

/-- `RleDecoder::ReadHeader`.  `some (false, d)` is the clean false return
(VLQ read failed, state untouched); `none` is a `DCHECK` failure (zero
count in an indicator, or missing value bit after a repeated indicator). -/
def RleDecoder.ReadHeader (d : RleDecoder) : Option (Bool × RleDecoder) :=
  if d.literal_count = 0 ∧ d.repeat_count = 0 then
    match getVlqIntR d.bytes d.pos with
    | none => some (false, d)
    | some (ind, p) =>
      if ind % 2 = 1 then
        if ind / 2 * 8 = 0 then none
        else some (true, { d with literal_count := ind / 2 * 8, pos := p })
      else
        if ind / 2 = 0 then none
        else
          match getBoolR d.bytes p with
          | none => none
          | some b =>
            some (true,
              { d with repeat_count := ind / 2, current_value := b, pos := p + 1 })
  else some (true, d)

/-- `RleDecoder::Get`. -/
def RleDecoder.Get (d : RleDecoder) : DecRes (Bool × RleDecoder) :=
  match d.ReadHeader with
  | none => .bad
  | some (false, d1) => .eof d1
  | some (true, d1) =>
    if 0 < d1.repeat_count then
      .ok (d1.current_value, { d1 with repeat_count := d1.repeat_count - 1 })
    else if d1.literal_count = 0 then .bad
    else
      match getBoolR d1.bytes d1.pos with
      | none => .bad
      | some b => .ok (b, { d1 with pos := d1.pos + 1, literal_count := d1.literal_count - 1 })

/-- The inner `while (literal_count_ > 0)` loop of
`RleDecoder::GetNextRun`: scan literal bits while they equal `val`.  On a
mismatching bit the source rewinds the reader (net cursor unchanged,
`literal_count_` not decremented, `current_value_` keeps the peeked bit)
and returns; `Sum.inl` is that early return, `Sum.inr` the completed loop.
The first argument is the loop counter, kept equal to `d.literal_count`. -/
def RleDecoder.LitScan (val : Bool) : Nat → Nat → RleDecoder →
    Option ((Bool × Nat × RleDecoder) ⊕ (Nat × RleDecoder))
  | 0, rl, d => some (Sum.inr (rl, d))
  | n + 1, rl, d =>
    match getBoolR d.bytes d.pos with
    | none => none
    | some b =>
      if b ≠ val then some (Sum.inl (val, rl, { d with current_value := b }))
      else
        LitScan val n (rl + 1)
          { d with current_value := b, pos := d.pos + 1,
                   literal_count := d.literal_count - 1 }

/-- The `if (*run_length == 0)` step at the head of the literal branch of
`RleDecoder::GetNextRun`: when no run is accumulated yet, read one literal
bit as the run's value. -/
def RleDecoder.GnrFirst (val : Bool) (rl : Nat) (d : RleDecoder) :
    Option (Bool × Nat × RleDecoder) :=
  if rl = 0 then
    match getBoolR d.bytes d.pos with
    | none => none
    | some b =>
      some (b, 1, { d with pos := d.pos + 1, literal_count := d.literal_count - 1 })
  else some (val, rl, d)

/-- The `while (ReadHeader())` loop of `RleDecoder::GetNextRun`, with the
accumulated output value and run length as arguments and explicit fuel
(the loop consumes at least one input byte per iteration except possibly
the first, so the fuel chosen in `GetNextRun` below never runs out). -/
def RleDecoder.GnrLoop : Nat → RleDecoder → Bool → Nat → DecRes (Bool × Nat × RleDecoder)
  | 0, _, _, _ => .bad
  | f + 1, d, val, rl =>
    match d.ReadHeader with
    | none => .bad
    | some (false, d1) => if 0 < rl then .ok (val, rl, d1) else .eof d1
    | some (true, d1) =>
      if 0 < d1.repeat_count then
        if 0 < rl ∧ val ≠ d1.current_value then .ok (val, rl, d1)
        else GnrLoop f { d1 with repeat_count := 0 } d1.current_value (rl + d1.repeat_count)
      else if d1.literal_count = 0 then .bad
      else
        match RleDecoder.GnrFirst val rl d1 with
        | none => .bad
        | some (val1, rl1, d2) =>
          match RleDecoder.LitScan val1 d2.literal_count rl1 d2 with
          | none => .bad
          | some (Sum.inl r) => .ok r
          | some (Sum.inr (rl2, d3)) => GnrLoop f d3 val1 rl2

/-- `RleDecoder::GetNextRun`.  The C++ leaves `*val` uninitialised until
the first assignment; the model passes an arbitrary fixed `false`, which
no path lets escape. -/
def RleDecoder.GetNextRun (d : RleDecoder) : DecRes (Bool × Nat × RleDecoder) :=
  RleDecoder.GnrLoop (2 * d.bytes.length + 2) d false 0

/-- Number of true values in a list. -/
def countTrue (xs : List Bool) : Nat := xs.count true

/-- The `while (to_skip > 0)` loop of `RleDecoder::Skip`, with fuel (the
skip count strictly decreases each iteration, so `to_skip` iterations
suffice).  Note the repeated-run branch assigns
`set_count = current_value_ * nskip` (it does not accumulate), exactly as
the source does. -/
def RleDecoder.SkipGo : Nat → Nat → RleDecoder → Nat → DecRes (Nat × RleDecoder)
  | _, 0, d, sc => .ok (sc, d)
  | 0, _ + 1, _, _ => .bad
  | f + 1, t + 1, d, sc =>
    match d.ReadHeader with
    | none => .bad
    | some (false, _) => .bad
    | some (true, d1) =>
      if 0 < d1.repeat_count then
        SkipGo f (t + 1 - min d1.repeat_count (t + 1))
          { d1 with repeat_count := d1.repeat_count - min d1.repeat_count (t + 1) }
          (if d1.current_value then min d1.repeat_count (t + 1) else 0)
      else if d1.literal_count = 0 then .bad
      else
        match readBitsR d1.bytes (min d1.literal_count (t + 1)) d1.pos with
        | none => .bad
        | some bits =>
          SkipGo f (t + 1 - min d1.literal_count (t + 1))
            { d1 with
                literal_count := d1.literal_count - min d1.literal_count (t + 1),
                pos := d1.pos + min d1.literal_count (t + 1) }
            (sc + countTrue bits)

/-- `RleDecoder::Skip`. -/
def RleDecoder.Skip (d : RleDecoder) (to_skip : Nat) : DecRes (Nat × RleDecoder) :=
  RleDecoder.SkipGo to_skip to_skip d 0

/-! ### The wire format as a denotation (spec section 6) -/

/-- Length in bytes of the VLQ encoding, the spec's `vlq_len`. -/
def vlq_len (n : Nat) : Nat := (vlqBytes n).length

/-- Follows the spec's wire grammar (section 6): parse runs from bit
position `pos` (aligning first, as every header read does) and return the
decoded value sequence; `none` on malformed input (zero counts, truncated
payloads or truncated varints).  Each step consumes at least one byte, so
fuel `bytes.length + 1` always suffices. -/
def parseFrom (bytes : List Nat) : Nat → Nat → Option (List Bool)
  | 0, _ => none
  | f + 1, pos =>
    if bytes.length ≤ alignPos pos / 8 then some []
    else
      match getVlqIntR bytes pos with
      | none => none
      | some (ind, p) =>
        if ind % 2 = 1 then
          if ind / 2 = 0 then none
          else
            match readBitsR bytes (8 * (ind / 2)) p with
            | none => none
            | some bits => (parseFrom bytes f (p + 8 * (ind / 2))).map (bits ++ ·)
        else
          if ind / 2 = 0 then none
          else
            match getBoolR bytes p with
            | none => none
            | some b =>
              (parseFrom bytes f (p + 1)).map (List.replicate (ind / 2) b ++ ·)

/-- The decoded value sequence of an encoded stream per the wire format. -/
def specDecode (bytes : List Nat) : Option (List Bool) :=
  parseFrom bytes (bytes.length + 1) 0

/-- The value sequence still to be delivered by a decoder state: the
pending repeated run, then the pending literal bits, then the parse of the
remaining stream. -/
def RleDecoder.rem (d : RleDecoder) : Option (List Bool) :=
  match readBitsR d.bytes d.literal_count d.pos with
  | none => none
  | some litBits =>
    match parseFrom d.bytes (d.bytes.length + 1) (d.pos + d.literal_count) with
    | none => none
    | some rest =>
      some (List.replicate d.repeat_count d.current_value ++ litBits ++ rest)

/-- Concatenation of `(value, length)` runs back into a value sequence
(also flattens a `Put` schedule into the sequence of values presented). -/
def joinRuns : List (Bool × Nat) → List Bool
  | [] => []
  | (v, n) :: rest => List.replicate n v ++ joinRuns rest

/-- Successive `GetNextRun` results from a state, up to `fuel` calls:
`some rs` when the calls reach a clean exhausted return. -/
def runsFrom : Nat → RleDecoder → Option (List (Bool × Nat))
  | 0, _ => none
  | f + 1, d =>
    match d.GetNextRun with
    | .eof _ => some []
    | .bad => none
    | .ok (v, n, d') => (runsFrom f d').map ((v, n) :: ·)

/-- The decoder invariant of the spec's data model: `repeat_count` and
`literal_count` are never simultaneously positive. -/
def RleDecoder.inv (d : RleDecoder) : Prop :=
  d.repeat_count = 0 ∨ d.literal_count = 0

end Rle

/-! ## Claim theorems -/

set_option maxRecDepth 80000

namespace Rle

/-- Feed a flat sequence of values one `PutOne` at a time. -/
def putSeq (e : RleEncoder) (vs : List Bool) : RleEncoder :=
  vs.foldl (fun e v => RleEncoder.PutOne v e) e

theorem Put_succ (v : Bool) : ∀ (n : Nat) (e : RleEncoder),
    RleEncoder.Put v (n + 1) e = (RleEncoder.Put v n e).PutOne v := by
  intro n
  induction n with
  | zero => intro e; rfl
  | succ n ih =>
    intro e
    show RleEncoder.Put v (n + 1) (e.PutOne v) = _
    rw [ih (e.PutOne v)]
    rfl

theorem putSeq_replicate (v : Bool) : ∀ (n : Nat) (e : RleEncoder),
    putSeq e (List.replicate n v) = RleEncoder.Put v n e := by
  intro n
  induction n with
  | zero => intro e; rfl
  | succ n ih =>
    intro e
    show putSeq (e.PutOne v) (List.replicate n v) = _
    rw [ih (e.PutOne v)]
    rfl

theorem putSeq_append (e : RleEncoder) (a b : List Bool) :
    putSeq e (a ++ b) = putSeq (putSeq e a) b := by
  unfold putSeq
  exact List.foldl_append _ _ _ _

theorem runPuts_eq_putSeq : ∀ (s : List (Bool × Nat)) (e : RleEncoder),
    runPuts e s = putSeq e (joinRuns s) := by
  intro s
  induction s with
  | nil => intro e; rfl
  | cons p rest ih =>
    intro e
    obtain ⟨v, n⟩ := p
    show runPuts (RleEncoder.Put v n e) rest = putSeq e (List.replicate n v ++ joinRuns rest)
    rw [putSeq_append, putSeq_replicate, ih]

end Rle

/-- C6: encoder output depends only on the flattened sequence of values
presented, not on how the values are grouped into `Put` calls: any two
schedules with the same flattening (in particular, `Put(v)` repeated `n`
times versus one `Put(v, n)`) produce byte-identical output. -/
theorem C6_theorem : ∀ s1 s2 : List (Bool × Nat),
    Rle.joinRuns s1 = Rle.joinRuns s2 → Rle.encodeBytes s1 = Rle.encodeBytes s2 := by
  intro s1 s2 h
  unfold Rle.encodeBytes
  rw [Rle.runPuts_eq_putSeq, Rle.runPuts_eq_putSeq, h]

/-- C6 witness: three single-value `Put(1)` calls flatten to the same
sequence as one `Put(1, 3)`, hence the encoded bytes agree. -/
theorem C6_witness :
    Rle.joinRuns [(true, 1), (true, 1), (true, 1)] = Rle.joinRuns [(true, 3)] ∧
    Rle.encodeBytes [(true, 1), (true, 1), (true, 1)] = Rle.encodeBytes [(true, 3)] :=
  ⟨by decide, C6_theorem [(true, 1), (true, 1), (true, 1)] [(true, 3)] (by decide)⟩

namespace Rle

/-- After at least 8 copies of the same value from a cleared encoder, the
run is tracked purely in `repeat_count`: nothing has been written and the
lookahead is empty. -/
theorem Put_repeat_state (v : Bool) : ∀ k : Nat,
    RleEncoder.Put v (8 + k) RleEncoder.Clear =
      { w := ⟨[], 0⟩, buffered_values := [], current_value := v,
        repeat_count := 8 + k, literal_count := 0,
        literal_indicator_byte := none, indicators := [] } := by
  intro k
  induction k with
  | zero => cases v <;> decide
  | succ k ih =>
    rw [show 8 + (k + 1) = (8 + k) + 1 by omega, Put_succ, ih]
    unfold RleEncoder.PutOne
    rw [if_pos rfl]
    simp only
    rw [if_pos (by omega)]

end Rle

/-- C7: for every value `v` and every `n ≥ 8`, encoding `n` copies of `v`
followed by `Flush` produces exactly `vlq_len(n << 1) + 1` bytes: one VLQ
repeated-run indicator plus one aligned value byte. -/
theorem C7_theorem : ∀ (v : Bool) (n : Nat), 8 ≤ n →
    ((Rle.RleEncoder.Put v n Rle.RleEncoder.Clear).Flush).w.bytes.length =
      Rle.vlq_len (2 * n) + 1 := by
  intro v n h
  obtain ⟨k, rfl⟩ : ∃ k, n = 8 + k := ⟨n - 8, by omega⟩
  rw [Rle.Put_repeat_state]
  have h1 : (0:Nat) < 8 + k := by omega
  simp [Rle.RleEncoder.Flush, Rle.RleEncoder.FlushRepeatedRun, Rle.BitWriter.PutAligned,
        Rle.BitWriter.PutVlqInt, Rle.BitWriter.Align, Rle.vlq_len, h1]

/-- C7 witness: 100 copies of `true` need a two-byte VLQ for the count
200, so the encoded output is exactly 3 bytes long. -/
theorem C7_witness :
    8 ≤ 100 ∧
    ((Rle.RleEncoder.Put true 100 Rle.RleEncoder.Clear).Flush).w.bytes.length =
      Rle.vlq_len (2 * 100) + 1 :=
  ⟨by decide, C7_theorem true 100 (by decide)⟩

namespace Rle

/-- Encoder states reachable through the public interface: the cleared
initial state, `Put`, and `Flush` (`Clear` returns to the initial state). -/
inductive Reach : RleEncoder → Prop
  | clear : Reach RleEncoder.Clear
  | put (v : Bool) (n : Nat) {e : RleEncoder} : Reach e → Reach (RleEncoder.Put v n e)
  | flush {e : RleEncoder} : Reach e → Reach e.Flush

/-- Branch equation: a long-enough repeated run with an open literal run
closes the literal indicator. -/
theorem FBV_eq_rep_lit (done : Bool) (e : RleEncoder) (hrc : 8 ≤ e.repeat_count)
    (hlc : e.literal_count ≠ 0) :
    RleEncoder.FlushBufferedValues done e =
      RleEncoder.FlushLiteralRun true { e with buffered_values := [] } := by
  simp [RleEncoder.FlushBufferedValues, hrc, hlc]

/-- Branch equation: a long-enough repeated run with no open literal run
just discards the lookahead. -/
theorem FBV_eq_rep_nolit (done : Bool) (e : RleEncoder) (hrc : 8 ≤ e.repeat_count)
    (hlc : e.literal_count = 0) :
    RleEncoder.FlushBufferedValues done e = { e with buffered_values := [] } := by
  simp [RleEncoder.FlushBufferedValues, hrc, hlc]

/-- Branch equation: literal extension hitting the indicator capacity
check closes the literal run. -/
theorem FBV_eq_lit_cap (done : Bool) (e : RleEncoder) (hrc : ¬ 8 ≤ e.repeat_count)
    (hcap : 64 ≤ bitmapSize (e.literal_count + e.buffered_values.length) + 1) :
    RleEncoder.FlushBufferedValues done e =
      { RleEncoder.FlushLiteralRun true
          { e with literal_count := e.literal_count + e.buffered_values.length }
        with repeat_count := 0 } := by
  simp [RleEncoder.FlushBufferedValues, hrc, hcap]

/-- Branch equation: literal extension below the capacity check streams
the buffered bits, closing the indicator only when `done`. -/
theorem FBV_eq_lit_nocap (done : Bool) (e : RleEncoder) (hrc : ¬ 8 ≤ e.repeat_count)
    (hcap : ¬ 64 ≤ bitmapSize (e.literal_count + e.buffered_values.length) + 1) :
    RleEncoder.FlushBufferedValues done e =
      { RleEncoder.FlushLiteralRun done
          { e with literal_count := e.literal_count + e.buffered_values.length }
        with repeat_count := 0 } := by
  simp [RleEncoder.FlushBufferedValues, hrc, hcap]

/-- Field effect of `FlushLiteralRun` needed by the invariant. -/
theorem FLRt_lc (e : RleEncoder) : (e.FlushLiteralRun true).literal_count = 0 := by
  cases h : e.literal_indicator_byte <;> simp [RleEncoder.FlushLiteralRun, h]

/-- Field effect of `FlushLiteralRun` needed by the invariant. -/
theorem FLRt_bv (e : RleEncoder) : (e.FlushLiteralRun true).buffered_values = [] := by
  cases h : e.literal_indicator_byte <;> simp [RleEncoder.FlushLiteralRun, h]

/-- Field effect of `FlushLiteralRun` needed by the invariant. -/
theorem FLRt_rc (e : RleEncoder) :
    (e.FlushLiteralRun true).repeat_count = e.repeat_count := by
  cases h : e.literal_indicator_byte <;> simp [RleEncoder.FlushLiteralRun, h]

/-- Field effect of `FlushLiteralRun` needed by the invariant: the ghost
trace grows by the back-patched indicator byte. -/
theorem FLRt_ind (e : RleEncoder) :
    (e.FlushLiteralRun true).indicators =
      e.indicators ++ [2 * bitmapSize e.literal_count + 1] := by
  cases h : e.literal_indicator_byte <;> simp [RleEncoder.FlushLiteralRun, h]

/-- Field effect of `FlushLiteralRun` needed by the invariant. -/
theorem FLRf_lc (e : RleEncoder) :
    (e.FlushLiteralRun false).literal_count = e.literal_count := by
  cases h : e.literal_indicator_byte <;> simp [RleEncoder.FlushLiteralRun, h]

/-- Field effect of `FlushLiteralRun` needed by the invariant. -/
theorem FLRf_bv (e : RleEncoder) :
    (e.FlushLiteralRun false).buffered_values = [] := by
  cases h : e.literal_indicator_byte <;> simp [RleEncoder.FlushLiteralRun, h]

/-- Field effect of `FlushLiteralRun` needed by the invariant. -/
theorem FLRf_rc (e : RleEncoder) :
    (e.FlushLiteralRun false).repeat_count = e.repeat_count := by
  cases h : e.literal_indicator_byte <;> simp [RleEncoder.FlushLiteralRun, h]

/-- Field effect of `FlushLiteralRun` needed by the invariant: without an
indicator update no indicator byte is recorded. -/
theorem FLRf_ind (e : RleEncoder) :
    (e.FlushLiteralRun false).indicators = e.indicators := by
  cases h : e.literal_indicator_byte <;> simp [RleEncoder.FlushLiteralRun, h]

/-- Field effect of `FlushRepeatedRun` needed by the invariant. -/
theorem FRR_lc (e : RleEncoder) :
    (e.FlushRepeatedRun).literal_count = e.literal_count := by
  simp [RleEncoder.FlushRepeatedRun]

/-- Field effect of `FlushRepeatedRun` needed by the invariant. -/
theorem FRR_bv (e : RleEncoder) :
    (e.FlushRepeatedRun).buffered_values = [] := by
  simp [RleEncoder.FlushRepeatedRun]

/-- Field effect of `FlushRepeatedRun` needed by the invariant. -/
theorem FRR_rc (e : RleEncoder) : (e.FlushRepeatedRun).repeat_count = 0 := by
  simp [RleEncoder.FlushRepeatedRun]

/-- Field effect of `FlushRepeatedRun` needed by the invariant: no literal
indicator byte is written. -/
theorem FRR_ind (e : RleEncoder) :
    (e.FlushRepeatedRun).indicators = e.indicators := by
  simp [RleEncoder.FlushRepeatedRun]

/-- Invariant maintained between the encoder's loop steps: the literal
count is a multiple of 8 capped by the header-capacity check, the
lookahead holds at most 7 values, and every literal indicator emitted so
far encodes a group count in `[1, 128)`. -/
def EncInv (e : RleEncoder) : Prop :=
  e.literal_count % 8 = 0 ∧ e.literal_count ≤ 496 ∧ e.buffered_values.length ≤ 7 ∧
  ∀ x ∈ e.indicators, ∃ g, 1 ≤ g ∧ g < 128 ∧ x = 2 * g + 1

theorem EncInv_PushBuffered (v : Bool) (e : RleEncoder) (h : EncInv e) :
    EncInv (e.PushBuffered v) := by
  obtain ⟨h8, h496, hnb, hind⟩ := h
  by_cases hlen : (e.buffered_values ++ [v]).length = 8
  · have hlen7 : e.buffered_values.length = 7 := by simp at hlen; omega
    simp only [RleEncoder.PushBuffered, hlen, if_true]
    by_cases hrc : 8 ≤ e.repeat_count
    · by_cases hlc : e.literal_count = 0
      · rw [FBV_eq_rep_nolit false
          { e with buffered_values := e.buffered_values ++ [v] } hrc hlc]
        exact ⟨h8, h496, by simp, hind⟩
      · rw [FBV_eq_rep_lit false
          { e with buffered_values := e.buffered_values ++ [v] } hrc hlc]
        refine ⟨by simp [FLRt_lc], by simp [FLRt_lc], by simp [FLRt_bv], ?_⟩
        intro x hx
        simp only [FLRt_ind] at hx
        rcases List.mem_append.mp hx with hx | hx
        · exact hind x hx
        · refine ⟨bitmapSize e.literal_count, by unfold bitmapSize; omega,
                  by unfold bitmapSize; omega, List.mem_singleton.mp hx⟩
    · by_cases hcap :
          64 ≤ bitmapSize (e.literal_count + (e.buffered_values ++ [v]).length) + 1
      · rw [FBV_eq_lit_cap false
          { e with buffered_values := e.buffered_values ++ [v] } hrc hcap]
        rw [hlen] at hcap
        refine ⟨by simp [FLRt_lc], by simp [FLRt_lc], by simp [FLRt_bv], ?_⟩
        intro x hx
        simp only [FLRt_ind, hlen] at hx
        rcases List.mem_append.mp hx with hx | hx
        · exact hind x hx
        · refine ⟨bitmapSize (e.literal_count + 8),
                  by unfold bitmapSize; omega,
                  by unfold bitmapSize at hcap ⊢; omega,
                  List.mem_singleton.mp hx⟩
      · rw [FBV_eq_lit_nocap false
          { e with buffered_values := e.buffered_values ++ [v] } hrc hcap]
        rw [hlen] at hcap
        unfold bitmapSize at hcap
        refine ⟨?_, ?_, by simp [FLRf_bv], ?_⟩
        · simp only [FLRf_lc]; simp [hlen7]; omega
        · simp only [FLRf_lc]; simp [hlen7]; omega
        · intro x hx
          simp only [FLRf_ind] at hx
          exact hind x hx
  · have hlen' : e.buffered_values.length + 1 ≠ 8 := by simp at hlen; omega
    simp only [RleEncoder.PushBuffered]
    rw [if_neg (show ¬ ({ e with buffered_values := e.buffered_values ++ [v] }
          : RleEncoder).buffered_values.length = 8 by simp [hlen'])]
    refine ⟨h8, h496, ?_, hind⟩
    simp
    omega

/-- Branch equation for `PutOne`: continuation of a long repeated run. -/
theorem PutOne_eq_cont (v : Bool) (e : RleEncoder) (hcv : e.current_value = v)
    (hrc : 8 < e.repeat_count + 1) :
    e.PutOne v = { e with repeat_count := e.repeat_count + 1 } := by
  simp [RleEncoder.PutOne, hcv, hrc]

/-- Branch equation for `PutOne`: matching value still being buffered. -/
theorem PutOne_eq_buf (v : Bool) (e : RleEncoder) (hcv : e.current_value = v)
    (hrc : ¬ 8 < e.repeat_count + 1) :
    e.PutOne v =
      RleEncoder.PushBuffered v { e with repeat_count := e.repeat_count + 1 } := by
  simp [RleEncoder.PutOne, hcv, hrc]

/-- Branch equation for `PutOne`: value change ending a long repeated run. -/
theorem PutOne_eq_new_flush (v : Bool) (e : RleEncoder) (hcv : ¬ e.current_value = v)
    (hrc : 8 ≤ e.repeat_count) :
    e.PutOne v =
      RleEncoder.PushBuffered v
        { e.FlushRepeatedRun with repeat_count := 1, current_value := v } := by
  simp [RleEncoder.PutOne, hcv, hrc]

/-- Branch equation for `PutOne`: value change with a short current run. -/
theorem PutOne_eq_new (v : Bool) (e : RleEncoder) (hcv : ¬ e.current_value = v)
    (hrc : ¬ 8 ≤ e.repeat_count) :
    e.PutOne v =
      RleEncoder.PushBuffered v { e with repeat_count := 1, current_value := v } := by
  simp [RleEncoder.PutOne, hcv, hrc]

theorem EncInv_PutOne (v : Bool) (e : RleEncoder) (h : EncInv e) :
    EncInv (e.PutOne v) := by
  obtain ⟨h8, h496, hnb, hind⟩ := h
  by_cases hcv : e.current_value = v
  · by_cases hrc : 8 < e.repeat_count + 1
    · rw [PutOne_eq_cont v e hcv hrc]
      exact ⟨h8, h496, hnb, hind⟩
    · rw [PutOne_eq_buf v e hcv hrc]
      exact EncInv_PushBuffered v _ ⟨h8, h496, hnb, hind⟩
  · by_cases hrc : 8 ≤ e.repeat_count
    · rw [PutOne_eq_new_flush v e hcv hrc]
      refine EncInv_PushBuffered v _ ⟨?_, ?_, ?_, ?_⟩
      · simp only [FRR_lc]; exact h8
      · simp only [FRR_lc]; exact h496
      · simp only [FRR_bv]; simp
      · simp only [FRR_ind]; exact hind
    · rw [PutOne_eq_new v e hcv hrc]
      exact EncInv_PushBuffered v _ ⟨h8, h496, hnb, hind⟩

theorem EncInv_Put (v : Bool) : ∀ (n : Nat) (e : RleEncoder), EncInv e →
    EncInv (RleEncoder.Put v n e) := by
  intro n
  induction n with
  | zero => intro e h; exact h
  | succ n ih =>
    intro e h
    exact ih _ (EncInv_PutOne v e h)

/-- Branch equation for `Flush`: the all-repeat close condition. -/
theorem Flush_eq_rep (e : RleEncoder)
    (har : e.repeat_count > 0 ∧ (e.literal_count = 0 ∧
      (e.repeat_count = e.buffered_values.length ∨ e.buffered_values.length = 0))) :
    e.Flush = e.FlushRepeatedRun := by
  have hp : e.literal_count > 0 ∨ e.repeat_count > 0 ∨ e.buffered_values.length > 0 :=
    Or.inr (Or.inl har.1)
  unfold RleEncoder.Flush
  rw [if_pos hp, if_pos har]

/-- Branch equation for `Flush`: closing as a literal run. -/
theorem Flush_eq_lit (e : RleEncoder)
    (hp : e.literal_count > 0 ∨ e.repeat_count > 0 ∨ e.buffered_values.length > 0)
    (har : ¬ (e.repeat_count > 0 ∧ (e.literal_count = 0 ∧
      (e.repeat_count = e.buffered_values.length ∨ e.buffered_values.length = 0)))) :
    e.Flush =
      { RleEncoder.FlushLiteralRun true
          { e with literal_count := e.literal_count + e.buffered_values.length }
        with repeat_count := 0 } := by
  simp only [RleEncoder.Flush, if_pos hp, if_neg har]

/-- Branch equation for `Flush`: nothing pending. -/
theorem Flush_eq_none (e : RleEncoder)
    (hp : ¬ (e.literal_count > 0 ∨ e.repeat_count > 0 ∨ e.buffered_values.length > 0)) :
    e.Flush = e := by
  simp only [RleEncoder.Flush, if_neg hp]

theorem EncInv_Flush (e : RleEncoder) (h : EncInv e) : EncInv e.Flush := by
  obtain ⟨h8, h496, hnb, hind⟩ := h
  by_cases hp : e.literal_count > 0 ∨ e.repeat_count > 0 ∨ e.buffered_values.length > 0
  · by_cases har : e.repeat_count > 0 ∧ (e.literal_count = 0 ∧
        (e.repeat_count = e.buffered_values.length ∨ e.buffered_values.length = 0))
    · rw [Flush_eq_rep e har]
      refine ⟨?_, ?_, ?_, ?_⟩
      · simp only [FRR_lc]; exact h8
      · simp only [FRR_lc]; exact h496
      · simp only [FRR_bv]; simp
      · simp only [FRR_ind]; exact hind
    · rw [Flush_eq_lit e hp har]
      have hpos : 1 ≤ e.literal_count + e.buffered_values.length := by
        by_cases hlc : e.literal_count = 0
        · by_cases hb : e.buffered_values.length = 0
          · exfalso
            exact har ⟨by rcases hp with h | h | h <;> omega, hlc, Or.inr hb⟩
          · omega
        · omega
      refine ⟨by simp [FLRt_lc], by simp [FLRt_lc], by simp [FLRt_bv], ?_⟩
      intro x hx
      simp only [FLRt_ind] at hx
      rcases List.mem_append.mp hx with hx | hx
      · exact hind x hx
      · refine ⟨bitmapSize (e.literal_count + e.buffered_values.length),
                by unfold bitmapSize; omega, by unfold bitmapSize; omega,
                List.mem_singleton.mp hx⟩
  · rw [Flush_eq_none e hp]
    exact ⟨h8, h496, hnb, hind⟩

/-- Every reachable encoder state satisfies the invariant. -/
theorem Reach_EncInv {e : RleEncoder} (h : Reach e) : EncInv e := by
  induction h with
  | clear =>
    refine ⟨rfl, by decide, by decide, ?_⟩
    intro x hx
    simp [RleEncoder.Clear] at hx
  | put v n _ ih => exact EncInv_Put v n _ ih
  | flush _ ih => exact EncInv_Flush _ ih

end Rle

/-- C5: in every encoder state reachable from `Clear` via any sequence of
`Put` and `Flush` calls, every literal indicator byte ever written encodes
a group count `g` with `1 ≤ g < 128` (so `DCHECK_LT(num_groups, 128)`
never fails).  `indicators` is the ghost trace of written literal
indicator bytes. -/
theorem C5_theorem : ∀ e : Rle.RleEncoder, Rle.Reach e →
    ∀ x ∈ e.indicators, ∃ g, 1 ≤ g ∧ g < 128 ∧ x = 2 * g + 1 :=
  fun _ h => (Rle.Reach_EncInv h).2.2.2

/-- C5 witness: the encoder state after `Put(1,7); Put(0,1); Flush` is
reachable and its single emitted literal indicator byte `0x03` encodes
`num_groups = 1`. -/
theorem C5_witness :
    ((Rle.RleEncoder.Put false 1
        (Rle.RleEncoder.Put true 7 Rle.RleEncoder.Clear)).Flush).indicators = [3] ∧
    (∃ g, 1 ≤ g ∧ g < 128 ∧ 3 = 2 * g + 1) :=
  ⟨by decide,
   C5_theorem _ (Rle.Reach.flush (Rle.Reach.put false 1 (Rle.Reach.put true 7 Rle.Reach.clear)))
     3 (by decide)⟩

/-- C10: for every encoder state and value, `Put(v, 0)` (run_length zero)
is a no-op: the `while (run_length--)` loop body never executes, so every
field and the underlying buffer are unchanged. -/
theorem C10_theorem : ∀ (e : Rle.RleEncoder) (v : Bool), Rle.RleEncoder.Put v 0 e = e :=
  fun _ _ => rfl

/-- C3 counterexample: encoding four zeros then twelve ones does not
produce the bytes `03 F0 08 01` claimed by the spec: after the literal
flush the source resets `repeat_count_` to 0, so the remaining eight ones
form a repeated run of 8 (indicator `0x10`), not 4 (`0x08`). -/
theorem C3_counterexample :
    Rle.encodeBytes [(false, 4), (true, 12)] ≠ [0x03, 0xF0, 0x08, 0x01] := by
  decide

/-- C3 amended: encoding `[0]*4 ++ [1]*12` then flushing produces exactly
`03 F0 10 01` — one literal group of 8 (four zeros then four ones)
followed by a repeated run of 8 ones — and decoding that output with
`GetNextRun` yields the runs `(0, 4)` then `(1, 12)`. -/
theorem C3_theorem :
    Rle.encodeBytes [(false, 4), (true, 12)] = [0x03, 0xF0, 0x10, 0x01] ∧
    Rle.runsFrom 3 (Rle.RleDecoder.init [0x03, 0xF0, 0x10, 0x01]) =
      some [(false, 4), (true, 12)] := by
  decide

/-- C1: evaluation of the code at the failing input.  The sequence
`S = [1]*8 ++ [0]*8` encodes to `10 01 10 00`; decoding it with the single
call `Skip(16)` consumes exactly `|S| = 16` values (a subsequent `Get`
reports exhaustion), yet the reported number of true bits is 0, while `S`
contains 8 true values: the repeated-run branch of `RleDecoder::Skip`
overwrites `set_count` instead of accumulating into it. -/
theorem C1_theorem :
    Rle.encodeBytes [(true, 8), (false, 8)] = [0x10, 0x01, 0x10, 0x00] ∧
    Rle.countTrue (Rle.joinRuns [(true, 8), (false, 8)]) = 8 ∧
    (Rle.RleDecoder.init [0x10, 0x01, 0x10, 0x00]).Skip 16 =
      .ok (0, ⟨[0x10, 0x01, 0x10, 0x00], 25, false, 0, 0⟩) ∧
    (⟨[0x10, 0x01, 0x10, 0x00], 25, false, 0, 0⟩ : Rle.RleDecoder).Get =
      .eof ⟨[0x10, 0x01, 0x10, 0x00], 25, false, 0, 0⟩ := by
  decide

/-- C2: evaluation of the code at the failing input.  On the stream
encoding `[1]*8 ++ [0]*8`, the call `Skip(12)` advances over exactly 12
values — the subsequent `Get` correctly returns the 13th value, `false` —
but reports 0 true bits instead of the 8 true bits among the skipped
values, because the repeated-run branch of `RleDecoder::Skip` assigns
`set_count = current_value_ * nskip` rather than adding it. -/
theorem C2_theorem :
    Rle.encodeBytes [(true, 8), (false, 8)] = [0x10, 0x01, 0x10, 0x00] ∧
    Rle.countTrue (List.replicate 8 true ++ List.replicate 4 false) = 8 ∧
    (Rle.RleDecoder.init [0x10, 0x01, 0x10, 0x00]).Skip 12 =
      .ok (0, ⟨[0x10, 0x01, 0x10, 0x00], 25, false, 4, 0⟩) ∧
    (⟨[0x10, 0x01, 0x10, 0x00], 25, false, 4, 0⟩ : Rle.RleDecoder).Get =
      .ok (false, ⟨[0x10, 0x01, 0x10, 0x00], 25, false, 3, 0⟩) := by
  decide

/-- C8: when the decoder's input is exhausted — no pending repeated or
literal run and the varint read for the next header fails — `ReadHeader`
returns false leaving the state untouched, `Get` returns false producing
no value, and `GetNextRun` returns false with a zero run length (the
model's `eof` result, which carries no run). -/
theorem C8_theorem :
    ∀ d : Rle.RleDecoder, d.repeat_count = 0 → d.literal_count = 0 →
      Rle.getVlqIntR d.bytes d.pos = none →
      d.ReadHeader = some (false, d) ∧ d.Get = .eof d ∧ d.GetNextRun = .eof d := by
  intro d h1 h2 h3
  have hrh : d.ReadHeader = some (false, d) := by
    unfold Rle.RleDecoder.ReadHeader
    rw [if_pos ⟨h2, h1⟩, h3]
  refine ⟨hrh, ?_, ?_⟩
  · unfold Rle.RleDecoder.Get
    rw [hrh]
  · show Rle.RleDecoder.GnrLoop (2 * d.bytes.length + 2) d false 0 = .eof d
    have : 2 * d.bytes.length + 2 = (2 * d.bytes.length + 1) + 1 := rfl
    rw [this]
    unfold Rle.RleDecoder.GnrLoop
    rw [hrh]
    simp

/-- C8 witness: the empty input stream satisfies the hypotheses of
`C8_theorem`, and the three exhaustion conclusions hold there. -/
theorem C8_witness :
    Rle.getVlqIntR [] 0 = none ∧
    ((Rle.RleDecoder.init []).ReadHeader = some (false, Rle.RleDecoder.init []) ∧
     (Rle.RleDecoder.init []).Get = .eof (Rle.RleDecoder.init []) ∧
     (Rle.RleDecoder.init []).GetNextRun = .eof (Rle.RleDecoder.init [])) :=
  ⟨by decide, C8_theorem (Rle.RleDecoder.init []) rfl rfl (by decide)⟩


namespace Rle

/-- `ReadHeader` preserves the decoder invariant: when both counts are
zero it loads exactly one of them, otherwise it leaves the state alone. -/
theorem ReadHeader_inv {d : RleDecoder} (h : d.inv) :
    ∀ {b : Bool} {d1 : RleDecoder}, d.ReadHeader = some (b, d1) → d1.inv := by
  intro b d1 hr
  unfold RleDecoder.ReadHeader at hr
  split at hr
  next hc =>
    split at hr
    next =>
      simp only [Option.some.injEq, Prod.mk.injEq] at hr
      rw [← hr.2]
      exact h
    next ind p hvlq =>
      split at hr
      next hodd =>
        split at hr
        next hz => simp at hr
        next hz =>
          simp only [Option.some.injEq, Prod.mk.injEq] at hr
          rw [← hr.2]
          exact Or.inl hc.2
      next hodd =>
        split at hr
        next hz => simp at hr
        next hz =>
          split at hr
          next => simp at hr
          next bb hbb =>
            simp only [Option.some.injEq, Prod.mk.injEq] at hr
            rw [← hr.2]
            exact Or.inr hc.1
  next hc =>
    simp only [Option.some.injEq, Prod.mk.injEq] at hr
    rw [← hr.2]
    exact h

/-- `Get` preserves the decoder invariant on both of its outcomes. -/
theorem Get_inv {d : RleDecoder} (h : d.inv) :
    (∀ v d', d.Get = .ok (v, d') → d'.inv) ∧
    (∀ d', d.Get = .eof d' → d'.inv) := by
  constructor
  · intro v d' hg
    unfold RleDecoder.Get at hg
    split at hg
    next => simp at hg
    next d1 hrh => simp at hg
    next d1 hrh =>
      have hd1 : d1.inv := ReadHeader_inv h hrh
      split at hg
      next hrc =>
        simp only [DecRes.ok.injEq, Prod.mk.injEq] at hg
        rw [← hg.2]
        rcases hd1 with h0 | h0
        · exact absurd h0 (by omega)
        · exact Or.inr h0
      next hrc =>
        split at hg
        next hlz => simp at hg
        next hlz =>
          split at hg
          next => simp at hg
          next bb hbb =>
            simp only [DecRes.ok.injEq, Prod.mk.injEq] at hg
            rw [← hg.2]
            exact Or.inl (show d1.repeat_count = 0 by omega)
  · intro d' hg
    unfold RleDecoder.Get at hg
    split at hg
    next => simp at hg
    next d1 hrh =>
      have hd1 : d1.inv := ReadHeader_inv h hrh
      simp only [DecRes.eof.injEq] at hg
      rw [← hg]
      exact hd1
    next d1 hrh =>
      split at hg
      next hrc => simp at hg
      next hrc =>
        split at hg
        next hlz => simp at hg
        next hlz =>
          split at hg
          next => simp at hg
          next bb hbb => simp at hg

/-- The first-bit step of the literal branch leaves `repeat_count`
untouched. -/
theorem GnrFirst_repeat {val : Bool} {rl : Nat} {d : RleDecoder}
    {val1 : Bool} {rl1 : Nat} {d2 : RleDecoder}
    (hgf : RleDecoder.GnrFirst val rl d = some (val1, rl1, d2))
    (h : d.repeat_count = 0) : d2.repeat_count = 0 := by
  unfold RleDecoder.GnrFirst at hgf
  split at hgf
  next hrl =>
    split at hgf
    next => simp at hgf
    next b hb =>
      simp only [Option.some.injEq, Prod.mk.injEq] at hgf
      rw [← hgf.2.2]
      exact h
  next hrl =>
    simp only [Option.some.injEq, Prod.mk.injEq] at hgf
    rw [← hgf.2.2]
    exact h

/-- The literal-scanning loop of `GetNextRun` never touches
`repeat_count`. -/
theorem LitScan_repeat (val : Bool) :
    ∀ (n rl : Nat) (d : RleDecoder), d.repeat_count = 0 →
      (∀ v r d', RleDecoder.LitScan val n rl d = some (Sum.inl (v, r, d')) →
        d'.repeat_count = 0) ∧
      (∀ r d', RleDecoder.LitScan val n rl d = some (Sum.inr (r, d')) →
        d'.repeat_count = 0) := by
  intro n
  induction n with
  | zero =>
    intro rl d h
    constructor
    · intro v r d' hh
      simp [RleDecoder.LitScan] at hh
    · intro r d' hh
      simp only [RleDecoder.LitScan, Option.some.injEq, Sum.inr.injEq,
        Prod.mk.injEq] at hh
      rw [← hh.2]
      exact h
  | succ n ih =>
    intro rl d h
    constructor
    · intro v r d' hh
      unfold RleDecoder.LitScan at hh
      split at hh
      next => simp at hh
      next b hb =>
        split at hh
        next hne =>
          simp only [Option.some.injEq, Sum.inl.injEq, Prod.mk.injEq] at hh
          rw [← hh.2.2]
          exact h
        next hne =>
          exact (ih (rl + 1)
            { d with
                current_value := b, pos := d.pos + 1,
                literal_count := d.literal_count - 1 } h).1 v r d' hh
    · intro r d' hh
      unfold RleDecoder.LitScan at hh
      split at hh
      next => simp at hh
      next b hb =>
        split at hh
        next hne => simp at hh
        next hne =>
          exact (ih (rl + 1)
            { d with
                current_value := b, pos := d.pos + 1,
                literal_count := d.literal_count - 1 } h).2 r d' hh

/-- The `GetNextRun` loop preserves the decoder invariant. -/
theorem GnrLoop_inv :
    ∀ (f : Nat) (d : RleDecoder) (val : Bool) (rl : Nat), d.inv →
      (∀ v n d', RleDecoder.GnrLoop f d val rl = .ok (v, n, d') → d'.inv) ∧
      (∀ d', RleDecoder.GnrLoop f d val rl = .eof d' → d'.inv) := by
  intro f
  induction f with
  | zero =>
    intro d val rl _
    constructor
    · intro v n d' hh
      simp [RleDecoder.GnrLoop] at hh
    · intro d' hh
      simp [RleDecoder.GnrLoop] at hh
  | succ f ih =>
    intro d val rl h
    constructor
    · intro v n d' hh
      unfold RleDecoder.GnrLoop at hh
      split at hh
      next => simp at hh
      next d1 hrh =>
        have hd1 : d1.inv := ReadHeader_inv h hrh
        split at hh
        next hrl =>
          simp only [DecRes.ok.injEq, Prod.mk.injEq] at hh
          rw [← hh.2.2]
          exact hd1
        next hrl => simp at hh
      next d1 hrh =>
        have hd1 : d1.inv := ReadHeader_inv h hrh
        split at hh
        next hrc =>
          split at hh
          next hret =>
            simp only [DecRes.ok.injEq, Prod.mk.injEq] at hh
            rw [← hh.2.2]
            exact hd1
          next hret =>
            exact (ih { d1 with repeat_count := 0 } d1.current_value
              (rl + d1.repeat_count) (Or.inl rfl)).1 v n d' hh
        next hrc =>
          split at hh
          next hlz => simp at hh
          next hlz =>
            have hrc0 : d1.repeat_count = 0 := by omega
            split at hh
            next hgf => simp at hh
            next val1 rl1 d2 hgf =>
              have hd2 : d2.repeat_count = 0 := GnrFirst_repeat hgf hrc0
              split at hh
              next hsc => simp at hh
              next rr hsc =>
                obtain ⟨v1, r1, dd⟩ := rr
                have hdd : dd.repeat_count = 0 :=
                  (LitScan_repeat val1 d2.literal_count rl1 d2 hd2).1 v1 r1 dd hsc
                simp only [DecRes.ok.injEq, Prod.mk.injEq] at hh
                rw [← hh.2.2]
                exact Or.inl hdd
              next rl2 d3 hsc =>
                have hd3 : d3.repeat_count = 0 :=
                  (LitScan_repeat val1 d2.literal_count rl1 d2 hd2).2 rl2 d3 hsc
                exact (ih d3 val1 rl2 (Or.inl hd3)).1 v n d' hh
    · intro d' hh
      unfold RleDecoder.GnrLoop at hh
      split at hh
      next => simp at hh
      next d1 hrh =>
        have hd1 : d1.inv := ReadHeader_inv h hrh
        split at hh
        next hrl => simp at hh
        next hrl =>
          simp only [DecRes.eof.injEq] at hh
          rw [← hh]
          exact hd1
      next d1 hrh =>
        have hd1 : d1.inv := ReadHeader_inv h hrh
        split at hh
        next hrc =>
          split at hh
          next hret => simp at hh
          next hret =>
            exact (ih { d1 with repeat_count := 0 } d1.current_value
              (rl + d1.repeat_count) (Or.inl rfl)).2 d' hh
        next hrc =>
          split at hh
          next hlz => simp at hh
          next hlz =>
            have hrc0 : d1.repeat_count = 0 := by omega
            split at hh
            next hgf => simp at hh
            next val1 rl1 d2 hgf =>
              have hd2 : d2.repeat_count = 0 := GnrFirst_repeat hgf hrc0
              split at hh
              next hsc => simp at hh
              next rr hsc => simp at hh
              next rl2 d3 hsc =>
                have hd3 : d3.repeat_count = 0 :=
                  (LitScan_repeat val1 d2.literal_count rl1 d2 hd2).2 rl2 d3 hsc
                exact (ih d3 val1 rl2 (Or.inl hd3)).2 d' hh

/-- The `Skip` loop preserves the decoder invariant. -/
theorem SkipGo_inv :
    ∀ (f t : Nat) (d : RleDecoder) (sc : Nat), d.inv →
      ∀ c d', RleDecoder.SkipGo f t d sc = .ok (c, d') → d'.inv := by
  intro f
  induction f with
  | zero =>
    intro t d sc h c d' hh
    cases t with
    | zero =>
      simp only [RleDecoder.SkipGo, DecRes.ok.injEq, Prod.mk.injEq] at hh
      rw [← hh.2]
      exact h
    | succ t => simp [RleDecoder.SkipGo] at hh
  | succ f ih =>
    intro t d sc h c d' hh
    cases t with
    | zero =>
      simp only [RleDecoder.SkipGo, DecRes.ok.injEq, Prod.mk.injEq] at hh
      rw [← hh.2]
      exact h
    | succ t =>
      unfold RleDecoder.SkipGo at hh
      split at hh
      next => simp at hh
      next d1 hrh => simp at hh
      next d1 hrh =>
        have hd1 : d1.inv := ReadHeader_inv h hrh
        split at hh
        next hrc =>
          have hlz : d1.literal_count = 0 := by
            rcases hd1 with h0 | h0
            · exact absurd h0 (by omega)
            · exact h0
          refine ih _ _ _ ?_ c d' hh
          exact Or.inr hlz
        next hrc =>
          split at hh
          next hlz => simp at hh
          next hlz =>
            split at hh
            next => simp at hh
            next bits hbits =>
              refine ih _ _ _ ?_ c d' hh
              exact Or.inl (show d1.repeat_count = 0 by omega)

end Rle

/-- C9: the decoder invariant — `repeat_count` and `literal_count` are
never simultaneously positive (either one is positive and the other zero,
or both are zero) — holds in the initial state and is preserved by every
public decoder operation on any input: every state a successful or
cleanly-exhausted `Get`, `GetNextRun`, or `Skip` leaves behind satisfies
it again (malformed input aborts and leaves no state). -/
theorem C9_theorem :
    (∀ bytes, (Rle.RleDecoder.init bytes).inv) ∧
    (∀ d : Rle.RleDecoder, d.inv →
      (∀ v d', d.Get = .ok (v, d') → d'.inv) ∧
      (∀ d', d.Get = .eof d' → d'.inv) ∧
      (∀ v n d', d.GetNextRun = .ok (v, n, d') → d'.inv) ∧
      (∀ d', d.GetNextRun = .eof d' → d'.inv) ∧
      (∀ n c d', d.Skip n = .ok (c, d') → d'.inv)) := by
  constructor
  · intro bytes
    exact Or.inl rfl
  · intro d h
    refine ⟨(Rle.Get_inv h).1, (Rle.Get_inv h).2, ?_, ?_, ?_⟩
    · intro v n d' hh
      exact (Rle.GnrLoop_inv (2 * d.bytes.length + 2) d false 0 h).1 v n d' hh
    · intro d' hh
      exact (Rle.GnrLoop_inv (2 * d.bytes.length + 2) d false 0 h).2 d' hh
    · intro n c d' hh
      exact Rle.SkipGo_inv n n d 0 h c d' hh

/-- C9 witness: on the stream `10 01` the initial state satisfies the
invariant, and so does the state left behind by a successful `Get` (a
pending repeated run of 7 with zero literal count). -/
theorem C9_witness :
    (Rle.RleDecoder.init [0x10, 0x01]).inv ∧
    (⟨[0x10, 0x01], 9, true, 7, 0⟩ : Rle.RleDecoder).inv :=
  ⟨C9_theorem.1 [0x10, 0x01],
   ((C9_theorem.2 (Rle.RleDecoder.init [0x10, 0x01]) (Or.inl rfl)).1 true
     ⟨[0x10, 0x01], 9, true, 7, 0⟩ (by decide))⟩

namespace Rle

/-! ### Helper lemmas for the `GetNextRun` correctness proof (C4) -/

theorem alignPos_mod (pos : Nat) : alignPos pos % 8 = 0 := by
  unfold alignPos; omega

theorem le_alignPos (pos : Nat) : pos ≤ alignPos pos := by
  unfold alignPos; omega

theorem alignPos_le (pos : Nat) : alignPos pos ≤ pos + 7 := by
  unfold alignPos; omega

theorem alignPos_of_mod {pos : Nat} (h : pos % 8 = 0) : alignPos pos = pos := by
  unfold alignPos; omega

/-- A successful VLQ read starts from an in-range byte and advances the
(aligned) cursor by at least one whole byte. -/
theorem vlqGo_pos (bytes : List Nat) :
    ∀ (fuel p shift acc ind p' : Nat), p % 8 = 0 →
      vlqGo bytes fuel p shift acc = some (ind, p') →
      p' % 8 = 0 ∧ p + 8 ≤ p' ∧ p / 8 < bytes.length := by
  intro fuel
  induction fuel with
  | zero => intro p shift acc ind p' hp hv; simp [vlqGo] at hv
  | succ fuel ih =>
    intro p shift acc ind p' hp hv
    unfold vlqGo at hv
    split at hv
    next => simp at hv
    next b hb =>
      have hlen : p / 8 < bytes.length := by
        by_contra hcon
        rw [List.getElem?_eq_none (by omega)] at hb
        simp at hb
      split at hv
      next hlt =>
        simp only [Option.some.injEq, Prod.mk.injEq] at hv
        refine ⟨?_, ?_, hlen⟩ <;> omega
      next hlt =>
        obtain ⟨h1, h2, _⟩ := ih (p + 8) (shift + 7) (acc + (b - 128) * 2 ^ shift)
          ind p' (by omega) hv
        exact ⟨h1, by omega, hlen⟩

/-- A successful `GetVlqInt` leaves the cursor byte-aligned strictly past
the (in-range) first header byte. -/
theorem getVlq_pos {bytes : List Nat} {pos ind p : Nat}
    (h : getVlqIntR bytes pos = some (ind, p)) :
    p % 8 = 0 ∧ alignPos pos + 8 ≤ p ∧ alignPos pos / 8 < bytes.length :=
  vlqGo_pos bytes 5 (alignPos pos) 0 0 ind p (alignPos_mod pos) h

/-- An exhausted stream fails the VLQ read. -/
theorem getVlq_none_of_exhausted {bytes : List Nat} {pos : Nat}
    (h : bytes.length ≤ alignPos pos / 8) : getVlqIntR bytes pos = none := by
  unfold getVlqIntR vlqGo
  rw [List.getElem?_eq_none h]

theorem readBitsR_length {bytes : List Nat} :
    ∀ {n pos : Nat} {bits : List Bool}, readBitsR bytes n pos = some bits →
      bits.length = n := by
  intro n
  induction n with
  | zero =>
    intro pos bits h
    simp only [readBitsR, Option.some.injEq] at h
    rw [← h]
    rfl
  | succ n ih =>
    intro pos bits h
    unfold readBitsR at h
    split at h
    next => simp at h
    next b hb =>
      cases hr : readBitsR bytes n (pos + 1) with
      | none => rw [hr] at h; simp at h
      | some bits' =>
        rw [hr] at h
        simp at h
        subst h
        simp [ih hr]

/-- Destructuring a successful bit read of `n + 1` bits. -/
theorem readBitsR_succ {bytes : List Nat} {n pos : Nat} {bits : List Bool}
    (h : readBitsR bytes (n + 1) pos = some bits) :
    ∃ b bits', bits = b :: bits' ∧ getBoolR bytes pos = some b ∧
      readBitsR bytes n (pos + 1) = some bits' := by
  unfold readBitsR at h
  split at h
  next => simp at h
  next b hb =>
    cases hr : readBitsR bytes n (pos + 1) with
    | none => rw [hr] at h; simp at h
    | some bits' =>
      rw [hr] at h
      simp at h
      exact ⟨b, bits', h.symm, hb, rfl⟩

/-- Unfolding equation: parse at an exhausted position. -/
theorem parseFrom_eq_exhausted {bytes : List Nat} {pos : Nat} (f : Nat)
    (hex : bytes.length ≤ alignPos pos / 8) :
    parseFrom bytes (f + 1) pos = some [] := by
  unfold parseFrom
  rw [if_pos hex]

/-- Unfolding equation: parse of a literal run. -/
theorem parseFrom_eq_lit {bytes : List Nat} {pos ind p : Nat} {bits : List Bool} (f : Nat)
    (hex : ¬ bytes.length ≤ alignPos pos / 8)
    (hv : getVlqIntR bytes pos = some (ind, p)) (hodd : ind % 2 = 1)
    (hz : ¬ ind / 2 = 0) (hbits : readBitsR bytes (8 * (ind / 2)) p = some bits) :
    parseFrom bytes (f + 1) pos =
      (parseFrom bytes f (p + 8 * (ind / 2))).map (bits ++ ·) := by
  unfold parseFrom
  rw [if_neg hex]
  simp [hv, hodd, hz, hbits]
  congr 1
  rw [parseFrom.eq_def]

/-- Unfolding equation: parse of a repeated run. -/
theorem parseFrom_eq_rep {bytes : List Nat} {pos ind p : Nat} {b : Bool} (f : Nat)
    (hex : ¬ bytes.length ≤ alignPos pos / 8)
    (hv : getVlqIntR bytes pos = some (ind, p)) (hodd : ¬ ind % 2 = 1)
    (hz : ¬ ind / 2 = 0) (hb : getBoolR bytes p = some b) :
    parseFrom bytes (f + 1) pos =
      (parseFrom bytes f (p + 1)).map (List.replicate (ind / 2) b ++ ·) := by
  unfold parseFrom
  rw [if_neg hex]
  simp [hv, hodd, hz, hb]
  congr 1
  rw [parseFrom.eq_def]

/-- Parsing is unaffected by extra fuel. -/
theorem parseFrom_mono (bytes : List Nat) :
    ∀ (f f' pos : Nat) (xs : List Bool), f ≤ f' →
      parseFrom bytes f pos = some xs → parseFrom bytes f' pos = some xs := by
  intro f
  induction f with
  | zero => intro f' pos xs _ h; simp [parseFrom] at h
  | succ f ih =>
    intro f' pos xs hle h
    obtain ⟨f'', rfl⟩ : ∃ f'', f' = f'' + 1 := ⟨f' - 1, by omega⟩
    unfold parseFrom at h
    split at h
    next hex =>
      rw [parseFrom_eq_exhausted f'' hex]
      exact h
    next hex =>
      split at h
      next => simp at h
      next ind p hv =>
        split at h
        next hodd =>
          split at h
          next hz => simp at h
          next hz =>
            split at h
            next => simp at h
            next bits hbits =>
              cases hp : parseFrom bytes f (p + 8 * (ind / 2)) with
              | none => rw [hp] at h; simp at h
              | some rest =>
                rw [hp] at h
                rw [parseFrom_eq_lit f'' hex hv hodd hz hbits,
                  ih f'' _ rest (by omega) hp]
                exact h
        next hodd =>
          split at h
          next hz => simp at h
          next hz =>
            split at h
            next => simp at h
            next b hb =>
              cases hp : parseFrom bytes f (p + 1) with
              | none => rw [hp] at h; simp at h
              | some rest =>
                rw [hp] at h
                rw [parseFrom_eq_rep f'' hex hv hodd hz hb,
                  ih f'' _ rest (by omega) hp]
                exact h

/-- A parse can only produce the empty sequence at an exhausted position. -/
theorem parseFrom_nil {bytes : List Nat} :
    ∀ {f pos : Nat}, parseFrom bytes f pos = some [] →
      bytes.length ≤ alignPos pos / 8 := by
  intro f pos h
  cases f with
  | zero => simp [parseFrom] at h
  | succ f =>
    unfold parseFrom at h
    split at h
    next hex => exact hex
    next hex =>
      exfalso
      split at h
      next => simp at h
      next ind p hv =>
        split at h
        next hodd =>
          split at h
          next hz => simp at h
          next hz =>
            split at h
            next => simp at h
            next bits hbits =>
              cases hp : parseFrom bytes f (p + 8 * (ind / 2)) with
              | none => rw [hp] at h; simp at h
              | some rest =>
                rw [hp] at h
                simp at h
                have hlb : bits.length = 8 * (ind / 2) := readBitsR_length hbits
                rw [h.1] at hlb
                simp at hlb
                omega
        next hodd =>
          split at h
          next hz => simp at h
          next hz =>
            split at h
            next => simp at h
            next b hb =>
              cases hp : parseFrom bytes f (p + 1) with
              | none => rw [hp] at h; simp at h
              | some rest =>
                rw [hp] at h
                simp at h
                omega

end Rle

namespace Rle

/-- Termination measure for the `GetNextRun` loop: twice the remaining
whole bytes, plus one while a run is pending. -/
def mGnr (d : RleDecoder) : Nat :=
  2 * (d.bytes.length - d.pos / 8) +
    (if d.literal_count = 0 ∧ d.repeat_count = 0 then 0 else 1)

theorem mGnr_le (d : RleDecoder) : mGnr d ≤ 2 * d.bytes.length + 1 := by
  unfold mGnr
  split <;> omega

/-- Split a successful `rem` into its three layers. -/
theorem rem_decompose {d : RleDecoder} {vs : List Bool} (h : d.rem = some vs) :
    ∃ bits rest, readBitsR d.bytes d.literal_count d.pos = some bits ∧
      parseFrom d.bytes (d.bytes.length + 1) (d.pos + d.literal_count) = some rest ∧
      vs = List.replicate d.repeat_count d.current_value ++ bits ++ rest := by
  unfold RleDecoder.rem at h
  split at h
  next => simp at h
  next bits hbits =>
    split at h
    next => simp at h
    next rest hrest =>
      simp only [Option.some.injEq] at h
      exact ⟨bits, rest, hbits, hrest, h.symm⟩

/-- Reassemble a `rem` from its three layers. -/
theorem rem_build {d : RleDecoder} {bits rest : List Bool}
    (hbits : readBitsR d.bytes d.literal_count d.pos = some bits)
    (hrest : parseFrom d.bytes (d.bytes.length + 1) (d.pos + d.literal_count) = some rest) :
    d.rem = some (List.replicate d.repeat_count d.current_value ++ bits ++ rest) := by
  unfold RleDecoder.rem
  simp only [hbits, hrest]

/-- With no pending run, `rem` is just the parse of the remaining stream. -/
theorem rem_eq_parse {d : RleDecoder} (hrc : d.repeat_count = 0)
    (hlc : d.literal_count = 0) :
    d.rem = parseFrom d.bytes (d.bytes.length + 1) d.pos := by
  unfold RleDecoder.rem
  rw [hlc, hrc]
  cases hp : parseFrom d.bytes (d.bytes.length + 1) (d.pos + 0) with
  | none =>
    have : parseFrom d.bytes (d.bytes.length + 1) d.pos = none := by
      simpa using hp
    simp [readBitsR, hp, this]
  | some rest =>
    have : parseFrom d.bytes (d.bytes.length + 1) d.pos = some rest := by
      simpa using hp
    simp [readBitsR, hp, this]

/-- The initial decoder's remaining values are the wire-format denotation
of the whole stream. -/
theorem rem_init (bytes : List Nat) :
    (RleDecoder.init bytes).rem = specDecode bytes := by
  rw [rem_eq_parse rfl rfl]
  rfl

/-- A pending repeated run heads the remaining values. -/
theorem rem_repeat {d : RleDecoder} {vs : List Bool} (h : d.rem = some vs)
    (hlc : d.literal_count = 0) :
    ∃ rest, vs = List.replicate d.repeat_count d.current_value ++ rest ∧
      RleDecoder.rem { d with repeat_count := 0 } = some rest := by
  obtain ⟨bits, rest, hbits, hrest, hvs⟩ := rem_decompose h
  have hb0 : bits = [] := by
    have := readBitsR_length hbits
    rw [hlc] at this
    exact List.length_eq_zero.mp this
  refine ⟨rest, by rw [hvs, hb0]; simp, ?_⟩
  have h2 := rem_build (d := { d with repeat_count := 0 }) hbits hrest
  rw [h2, hb0]
  simp

/-- With no pending repeated run, the remaining values split into the
pending literal bits and the parse of the rest. -/
theorem rem_literal {d : RleDecoder} {vs : List Bool} (h : d.rem = some vs)
    (hrc : d.repeat_count = 0) :
    ∃ bits rest, readBitsR d.bytes d.literal_count d.pos = some bits ∧
      parseFrom d.bytes (d.bytes.length + 1) (d.pos + d.literal_count) = some rest ∧
      vs = bits ++ rest := by
  obtain ⟨bits, rest, hbits, hrest, hvs⟩ := rem_decompose h
  rw [hrc] at hvs
  exact ⟨bits, rest, hbits, hrest, by simpa using hvs⟩

/-- Central step lemma: on a state with remaining values `vs`, `ReadHeader`
either reports clean exhaustion (exactly when `vs` is empty and nothing is
pending) or produces a state with a pending run still representing `vs`,
consuming enough of the measure for the loop induction. -/
theorem ReadHeader_rem {d : RleDecoder} {vs : List Bool} (hinv : d.inv)
    (hrem : d.rem = some vs) :
    (vs = [] ∧ d.repeat_count = 0 ∧ d.literal_count = 0 ∧
      d.ReadHeader = some (false, d)) ∨
    (∃ d1, d.ReadHeader = some (true, d1) ∧ d1.rem = some vs ∧ d1.inv ∧
      (0 < d1.repeat_count ∨ 0 < d1.literal_count) ∧
      d1.bytes = d.bytes ∧
      2 * (d.bytes.length - d1.pos / 8) + 1 ≤ mGnr d ∧ vs ≠ []) := by
  by_cases hc : d.literal_count = 0 ∧ d.repeat_count = 0
  · have hrem' : parseFrom d.bytes (d.bytes.length + 1) d.pos = some vs := by
      rw [← rem_eq_parse hc.2 hc.1]
      exact hrem
    by_cases hex : d.bytes.length ≤ alignPos d.pos / 8
    · left
      have hnil : vs = [] := by
        rw [parseFrom_eq_exhausted d.bytes.length hex] at hrem'
        simpa using hrem'.symm
      refine ⟨hnil, hc.2, hc.1, ?_⟩
      unfold RleDecoder.ReadHeader
      rw [if_pos hc, getVlq_none_of_exhausted hex]
    · right
      have hposlt : d.pos / 8 < d.bytes.length := by
        have h1 := le_alignPos d.pos
        omega
      unfold parseFrom at hrem'
      split at hrem'
      next hex' => exact absurd hex' hex
      next =>
        split at hrem'
        next => simp at hrem'
        next ind p hv =>
          obtain ⟨hp8, hpge, hplt⟩ := getVlq_pos hv
          have halign : alignPos d.pos = 8 * ((d.pos + 7) / 8) := rfl
          split at hrem'
          next hodd =>
            split at hrem'
            next hz => simp at hrem'
            next hz =>
              split at hrem'
              next => simp at hrem'
              next bits hbits =>
                cases hpar : parseFrom d.bytes d.bytes.length (p + 8 * (ind / 2)) with
                | none => rw [hpar] at hrem'; simp at hrem'
                | some rest =>
                  rw [hpar] at hrem'
                  simp only [Option.map_some', Option.some.injEq] at hrem'
                  have hvs : vs = bits ++ rest := hrem'.symm
                  have hblen : bits.length = 8 * (ind / 2) := readBitsR_length hbits
                  refine ⟨{ d with literal_count := ind / 2 * 8, pos := p }, ?_, ?_, Or.inl hc.2, Or.inr (show 0 < ind / 2 * 8 by omega), rfl, ?_, ?_⟩
                  · unfold RleDecoder.ReadHeader
                    rw [if_pos hc]
                    simp only [hv]
                    rw [if_pos hodd, if_neg (show ¬ ind / 2 * 8 = 0 by omega)]
                  · have hbits' : readBitsR d.bytes (ind / 2 * 8) p = some bits := by
                      rw [Nat.mul_comm]
                      exact hbits
                    have hrest' : parseFrom d.bytes (d.bytes.length + 1)
                        (p + ind / 2 * 8) = some rest := by
                      rw [Nat.mul_comm (ind / 2) 8]
                      exact parseFrom_mono d.bytes d.bytes.length _ _ rest
                        (by omega) hpar
                    have := rem_build (d := { d with literal_count := ind / 2 * 8, pos := p }) hbits' hrest'
                    rw [this, hc.2, hvs]
                    simp
                  · unfold mGnr
                    rw [if_pos ⟨hc.1, hc.2⟩]
                    simp only
                    omega
                  · rw [hvs]
                    intro hcon
                    have := congrArg List.length hcon
                    simp [hblen] at this
                    omega
          next hodd =>
            split at hrem'
            next hz => simp at hrem'
            next hz =>
              split at hrem'
              next => simp at hrem'
              next b hb =>
                cases hpar : parseFrom d.bytes d.bytes.length (p + 1) with
                | none => rw [hpar] at hrem'; simp at hrem'
                | some rest =>
                  rw [hpar] at hrem'
                  simp only [Option.map_some', Option.some.injEq] at hrem'
                  have hvs : vs = List.replicate (ind / 2) b ++ rest := hrem'.symm
                  refine ⟨{ d with repeat_count := ind / 2, current_value := b, pos := p + 1 }, ?_, ?_, Or.inr hc.1, Or.inl (show 0 < ind / 2 by omega), rfl, ?_, ?_⟩
                  · unfold RleDecoder.ReadHeader
                    rw [if_pos hc]
                    simp only [hv]
                    rw [if_neg hodd, if_neg hz]
                    simp only [hb]
                  · have hbits' : readBitsR d.bytes d.literal_count (p + 1) =
                        some [] := by
                      rw [hc.1]
                      rfl
                    have hrest' : parseFrom d.bytes (d.bytes.length + 1)
                        (p + 1 + d.literal_count) = some rest := by
                      rw [hc.1]
                      exact parseFrom_mono d.bytes d.bytes.length _ _ rest
                        (by omega) hpar
                    have := rem_build (d := { d with repeat_count := ind / 2, current_value := b, pos := p + 1 }) hbits' hrest'
                    rw [this, hvs]
                    simp
                  · unfold mGnr
                    rw [if_pos ⟨hc.1, hc.2⟩]
                    simp only
                    omega
                  · rw [hvs]
                    intro hcon
                    have := congrArg List.length hcon
                    simp at this
                    omega
  · right
    have hvs : vs ≠ [] := by
      intro hnil
      rw [hnil] at hrem
      obtain ⟨bits, rest, hbits, hrest, hempty⟩ := rem_decompose hrem
      have h1 : List.replicate d.repeat_count d.current_value = [] ∧
          bits = [] := by
        constructor
        · cases hrep : List.replicate d.repeat_count d.current_value with
          | nil => rfl
          | cons x xs => rw [hrep] at hempty; simp at hempty
        · cases hb : bits with
          | nil => rfl
          | cons x xs =>
            rw [hb] at hempty
            rcases List.append_eq_nil.mp hempty.symm with ⟨h2, _⟩
            rcases List.append_eq_nil.mp h2 with ⟨_, h3⟩
            simp at h3
      have hrc0 : d.repeat_count = 0 := by
        have := congrArg List.length h1.1
        simpa using this
      have hlc0 : d.literal_count = 0 := by
        have := readBitsR_length hbits
        rw [h1.2] at this
        simpa using this.symm
      exact hc ⟨hlc0, hrc0⟩
    refine ⟨d, ?_, hrem, hinv, by omega, rfl, ?_, hvs⟩
    · unfold RleDecoder.ReadHeader
      rw [if_neg hc]
    · unfold mGnr
      rw [if_neg hc]

end Rle

namespace Rle

/-! ### takeWhile / dropWhile bookkeeping -/

theorem takeWhile_all_append {p : Bool → Bool} {xs : List Bool}
    (h : ∀ x ∈ xs, p x) (ys : List Bool) :
    (xs ++ ys).takeWhile p = xs ++ ys.takeWhile p ∧
    (xs ++ ys).dropWhile p = ys.dropWhile p := by
  induction xs with
  | nil => simp
  | cons a l ih =>
    have hpa : p a := h a (by simp)
    have hrec := ih (fun x hx => h x (by simp [hx]))
    constructor
    · simp [List.takeWhile_cons, hpa, hrec.1]
    · simp [List.dropWhile_cons, hpa, hrec.2]

theorem takeWhile_stop_append {p : Bool → Bool} {xs : List Bool} (ys : List Bool)
    (h : (xs.takeWhile p).length < xs.length) :
    (xs ++ ys).takeWhile p = xs.takeWhile p ∧
    (xs ++ ys).dropWhile p = xs.dropWhile p ++ ys := by
  induction xs with
  | nil => simp at h
  | cons a l ih =>
    by_cases hpa : p a
    · have h' : (l.takeWhile p).length < l.length := by
        simp only [List.takeWhile_cons, hpa, if_true, List.length_cons] at h
        simpa using h
      have hrec := ih h'
      constructor
      · simp [List.takeWhile_cons, hpa, hrec.1]
      · simp [List.dropWhile_cons, hpa, hrec.2]
    · constructor
      · simp [List.takeWhile_cons, hpa]
      · simp [List.dropWhile_cons, hpa]

theorem all_of_takeWhile_full {p : Bool → Bool} :
    ∀ {l : List Bool}, (l.takeWhile p).length = l.length → ∀ x ∈ l, p x := by
  intro l
  induction l with
  | nil => simp
  | cons a t ih =>
    intro h x hx
    by_cases hpa : p a
    · simp only [List.takeWhile_cons, hpa, if_true, List.length_cons] at h
      rcases List.mem_cons.mp hx with rfl | hx'
      · exact hpa
      · exact ih (by omega) x hx'
    · simp [List.takeWhile_cons, hpa] at h

theorem replicate_all_beq (v : Bool) (n : Nat) :
    ∀ x ∈ List.replicate n v, (x == v) = true := by
  intro x hx
  rw [List.eq_of_mem_replicate hx]
  simp

/-! ### The literal scanning loop against the remaining-values semantics -/

theorem LitScan_rem (val : Bool) :
    ∀ (n rl : Nat) (d : RleDecoder) (bits rest : List Bool),
      d.repeat_count = 0 → d.literal_count = n →
      readBitsR d.bytes n d.pos = some bits →
      parseFrom d.bytes (d.bytes.length + 1) (d.pos + n) = some rest →
      (((bits.takeWhile (· == val)).length < n →
        ∃ d', RleDecoder.LitScan val n rl d =
            some (Sum.inl (val, rl + (bits.takeWhile (· == val)).length, d')) ∧
          d'.rem = some (bits.dropWhile (· == val) ++ rest) ∧
          d'.repeat_count = 0 ∧ d'.bytes = d.bytes ∧ d.pos ≤ d'.pos) ∧
      ((bits.takeWhile (· == val)).length = n →
        ∃ d', RleDecoder.LitScan val n rl d = some (Sum.inr (rl + n, d')) ∧
          d'.rem = some rest ∧ d'.repeat_count = 0 ∧ d'.literal_count = 0 ∧
          d'.bytes = d.bytes ∧ d'.pos = d.pos + n)) := by
  intro n
  induction n with
  | zero =>
    intro rl d bits rest hrc hlc hbits hrest
    constructor
    · intro hlt
      exact absurd hlt (Nat.not_lt_zero _)
    · intro heq
      refine ⟨d, by simp [RleDecoder.LitScan], ?_, hrc, hlc, rfl, by omega⟩
      have h1 : readBitsR d.bytes d.literal_count d.pos = some [] := by
        rw [hlc]
        rfl
      have h2 : parseFrom d.bytes (d.bytes.length + 1) (d.pos + d.literal_count) =
          some rest := by
        rw [hlc]
        exact hrest
      have h3 := rem_build h1 h2
      rw [h3, hrc]
      simp
  | succ n ih =>
    intro rl d bits rest hrc hlc hbits hrest
    obtain ⟨b, bits', rfl, hb, hbits'⟩ := readBitsR_succ hbits
    by_cases hbv : b = val
    · have htw : ((b :: bits').takeWhile (· == val)).length =
          (bits'.takeWhile (· == val)).length + 1 := by
        simp [List.takeWhile_cons, hbv]
      have hdw : (b :: bits').dropWhile (· == val) =
          bits'.dropWhile (· == val) := by
        simp [List.dropWhile_cons, hbv]
      have heq1 : RleDecoder.LitScan val (n + 1) rl d =
          RleDecoder.LitScan val n (rl + 1)
            { d with
                current_value := b, pos := d.pos + 1,
                literal_count := d.literal_count - 1 } := by
        unfold RleDecoder.LitScan
        simp only [hb]
        rw [if_neg (by simp [hbv])]
        rw [RleDecoder.LitScan.eq_def]
      have hlc2 : ({ d with
          current_value := b, pos := d.pos + 1,
          literal_count := d.literal_count - 1 } : RleDecoder).literal_count = n := by
        simp [hlc]
      have hrest2 : parseFrom d.bytes (d.bytes.length + 1) (d.pos + 1 + n) =
          some rest := by
        have harr : d.pos + 1 + n = d.pos + (n + 1) := by omega
        rw [harr]
        exact hrest
      have IH := ih (rl + 1)
        { d with
            current_value := b, pos := d.pos + 1,
            literal_count := d.literal_count - 1 } bits' rest hrc hlc2 hbits' hrest2
      constructor
      · intro hlt
        have hlt' : (bits'.takeWhile (· == val)).length < n := by omega
        obtain ⟨d', he, hr, hrc', hby, hpos⟩ := IH.1 hlt'
        refine ⟨d', ?_, ?_, hrc', hby, by simp at hpos ⊢; omega⟩
        · rw [heq1, he, htw]
          have harr : rl + ((bits'.takeWhile (· == val)).length + 1) =
              rl + 1 + (bits'.takeWhile (· == val)).length := by omega
          rw [harr]
        · rw [hdw]
          exact hr
      · intro heqn
        rw [htw] at heqn
        have heqn' : (bits'.takeWhile (· == val)).length = n := by omega
        obtain ⟨d', he, hr, hrc', hlc', hby, hpos⟩ := IH.2 heqn'
        refine ⟨d', ?_, hr, hrc', hlc', hby, ?_⟩
        · rw [heq1, he]
          have harr : rl + 1 + n = rl + (n + 1) := by omega
          rw [harr]
        · simp at hpos
          omega
    · have htw0 : ((b :: bits').takeWhile (· == val)).length = 0 := by
        simp [List.takeWhile_cons, hbv]
      have hdw0 : (b :: bits').dropWhile (· == val) = b :: bits' := by
        simp [List.dropWhile_cons, hbv]
      constructor
      · intro hlt
        refine ⟨{ d with current_value := b }, ?_, ?_, hrc, rfl, by simp⟩
        · unfold RleDecoder.LitScan
          simp only [hb]
          rw [if_pos hbv]
          simp [htw0]
        · rw [hdw0]
          have h1 : readBitsR d.bytes d.literal_count d.pos = some (b :: bits') := by
            rw [hlc]
            exact hbits
          have h2 : parseFrom d.bytes (d.bytes.length + 1)
              (d.pos + d.literal_count) = some rest := by
            rw [hlc]
            exact hrest
          have h3 := rem_build (d := { d with current_value := b }) h1 h2
          rw [h3, hrc]
          simp
      · intro heqn
        rw [htw0] at heqn
        omega

end Rle

namespace Rle

theorem length_takeWhile_le (p : Bool → Bool) :
    ∀ l : List Bool, (l.takeWhile p).length ≤ l.length := by
  intro l
  induction l with
  | nil => simp
  | cons a t ih =>
    by_cases hpa : p a
    · simp only [List.takeWhile_cons, hpa, if_true, List.length_cons]
      omega
    · simp [List.takeWhile_cons, hpa]

/-- The `GetNextRun` loop computes exactly the next maximal run of the
remaining value sequence (continuing an accumulated run when `rl > 0`),
leaving a state that represents the rest. -/
theorem GnrLoop_rem :
    ∀ (f : Nat) (d : RleDecoder) (vs : List Bool) (val : Bool) (rl : Nat),
      d.inv → d.rem = some vs → mGnr d < f →
      ((0 < rl →
        ∃ d', RleDecoder.GnrLoop f d val rl =
            .ok (val, rl + (vs.takeWhile (· == val)).length, d') ∧
          d'.rem = some (vs.dropWhile (· == val)) ∧ d'.inv) ∧
      (∀ v rest, vs = v :: rest →
        ∃ d', RleDecoder.GnrLoop f d val 0 =
            .ok (v, 1 + (rest.takeWhile (· == v)).length, d') ∧
          d'.rem = some (rest.dropWhile (· == v)) ∧ d'.inv) ∧
      (vs = [] → ∃ d', RleDecoder.GnrLoop f d val 0 = .eof d' ∧
          d'.rem = some [] ∧ d'.inv)) := by
  intro f
  induction f with
  | zero =>
    intro d vs val rl _ _ hm
    exact absurd hm (Nat.not_lt_zero _)
  | succ f ih =>
    intro d vs val rl hinv hrem hm
    rcases ReadHeader_rem hinv hrem with
      ⟨hnil, hrc0, hlc0, hrh⟩ | ⟨d1, hrh, hrem1, hinv1, hcnt, hbyteq, hmeas, hvs⟩
    · subst hnil
      refine ⟨?_, ?_, ?_⟩
      · intro hrl
        refine ⟨d, ?_, by simpa using hrem, hinv⟩
        unfold RleDecoder.GnrLoop
        simp only [hrh]
        rw [if_pos hrl]
        simp
      · intro v rest heq
        exact absurd heq (by simp)
      · intro _
        refine ⟨d, ?_, hrem, hinv⟩
        unfold RleDecoder.GnrLoop
        simp only [hrh]
        rw [if_neg (by omega)]
    · by_cases hrc : 0 < d1.repeat_count
      · -- a repeated run is pending in d1
        have hlc1 : d1.literal_count = 0 := by
          rcases hinv1 with h | h
          · omega
          · exact h
        obtain ⟨rest2, hvs2, hrem2⟩ := rem_repeat hrem1 hlc1
        have hall : ∀ x ∈ List.replicate d1.repeat_count d1.current_value,
            (x == d1.current_value) = true := replicate_all_beq _ _
        have hinv2 : RleDecoder.inv { d1 with repeat_count := 0 } := Or.inl rfl
        have hm2 : mGnr { d1 with repeat_count := 0 } < f := by
          unfold mGnr
          rw [if_pos ⟨hlc1, rfl⟩]
          simp only [hbyteq]
          omega
        refine ⟨?_, ?_, ?_⟩
        · intro hrl
          by_cases hval : val = d1.current_value
          · subst hval
            obtain ⟨d', he, hr, hi⟩ :=
              (ih { d1 with repeat_count := 0 } rest2 d1.current_value
                (rl + d1.repeat_count) hinv2 hrem2 hm2).1 (by omega)
            refine ⟨d', ?_, ?_, hi⟩
            · unfold RleDecoder.GnrLoop
              simp only [hrh]
              rw [if_pos hrc, if_neg (by simp)]
              rw [hvs2, (takeWhile_all_append hall rest2).1]
              rw [List.length_append, List.length_replicate]
              rw [show rl + (d1.repeat_count +
                  (rest2.takeWhile (· == d1.current_value)).length) =
                rl + d1.repeat_count +
                  (rest2.takeWhile (· == d1.current_value)).length by omega]
              exact he
            · rw [hvs2, (takeWhile_all_append hall rest2).2]
              exact hr
          · refine ⟨d1, ?_, ?_, hinv1⟩
            · unfold RleDecoder.GnrLoop
              simp only [hrh]
              rw [if_pos hrc, if_pos ⟨hrl, hval⟩]
              have htw : vs.takeWhile (· == val) = [] := by
                obtain ⟨rc', hrc'⟩ : ∃ rc', d1.repeat_count = rc' + 1 :=
                  ⟨d1.repeat_count - 1, by omega⟩
                rw [hvs2, hrc', List.replicate_succ]
                simp [List.takeWhile_cons, Ne.symm hval]
              rw [htw]
              simp
            · have hdw : vs.dropWhile (· == val) = vs := by
                obtain ⟨rc', hrc'⟩ : ∃ rc', d1.repeat_count = rc' + 1 :=
                  ⟨d1.repeat_count - 1, by omega⟩
                rw [hvs2, hrc', List.replicate_succ]
                simp [List.dropWhile_cons, Ne.symm hval]
              rw [hdw]
              exact hrem1
        · intro v rest heq
          obtain ⟨rc', hrc'⟩ : ∃ rc', d1.repeat_count = rc' + 1 :=
            ⟨d1.repeat_count - 1, by omega⟩
          have hvs3 : vs = d1.current_value ::
              (List.replicate rc' d1.current_value ++ rest2) := by
            rw [hvs2, hrc', List.replicate_succ]
            simp
          rw [heq] at hvs3
          have hv : v = d1.current_value := (List.cons.injEq _ _ _ _ ▸ hvs3).1
          have hrest : rest = List.replicate rc' d1.current_value ++ rest2 :=
            (List.cons.injEq _ _ _ _ ▸ hvs3).2
          obtain ⟨d', he, hr, hi⟩ :=
            (ih { d1 with repeat_count := 0 } rest2 d1.current_value
              (0 + d1.repeat_count) hinv2 hrem2 hm2).1 (by omega)
          have hall' : ∀ x ∈ List.replicate rc' d1.current_value,
              (x == d1.current_value) = true := replicate_all_beq _ _
          refine ⟨d', ?_, ?_, hi⟩
          · unfold RleDecoder.GnrLoop
            simp only [hrh]
            rw [if_pos hrc, if_neg (by simp)]
            rw [hv, hrest, (takeWhile_all_append hall' rest2).1]
            rw [List.length_append, List.length_replicate]
            rw [show 1 + (rc' +
                (rest2.takeWhile (· == d1.current_value)).length) =
              0 + d1.repeat_count +
                (rest2.takeWhile (· == d1.current_value)).length by omega]
            exact he
          · rw [hv, hrest, (takeWhile_all_append hall' rest2).2]
            exact hr
        · intro hnil
          exact absurd hnil hvs
      · -- a literal run is pending in d1
        have hrc1 : d1.repeat_count = 0 := by omega
        have hlit : 0 < d1.literal_count := by
          rcases hcnt with h | h
          · omega
          · exact h
        obtain ⟨bits, rest, hbits, hrest, hvs2⟩ := rem_literal hrem1 hrc1
        have hblen : bits.length = d1.literal_count := readBitsR_length hbits
        refine ⟨?_, ?_, ?_⟩
        · intro hrl
          have hgf : RleDecoder.GnrFirst val rl d1 = some (val, rl, d1) := by
            unfold RleDecoder.GnrFirst
            rw [if_neg (by omega)]
          have LS := LitScan_rem val d1.literal_count rl d1 bits rest hrc1 rfl
            hbits hrest
          by_cases hfull : (bits.takeWhile (· == val)).length = d1.literal_count
          · obtain ⟨d3, hscan, hrem3, hrc3, hlc3, hby3, hpos3⟩ := LS.2 hfull
            have hallbits : ∀ x ∈ bits, (x == val) = true :=
              all_of_takeWhile_full (by omega)
            have hm3 : mGnr d3 < f := by
              unfold mGnr
              rw [if_pos ⟨hlc3, hrc3⟩]
              rw [hby3, hbyteq, hpos3]
              have hdiv : d1.pos / 8 ≤ (d1.pos + d1.literal_count) / 8 := by omega
              omega
            obtain ⟨d', he, hr, hi⟩ :=
              (ih d3 rest val (rl + d1.literal_count) (Or.inl hrc3) hrem3 hm3).1
                (by omega)
            refine ⟨d', ?_, ?_, hi⟩
            · unfold RleDecoder.GnrLoop
              simp only [hrh]
              rw [if_neg hrc, if_neg (by omega)]
              simp only [hgf, hscan]
              rw [hvs2, (takeWhile_all_append hallbits rest).1]
              rw [List.length_append]
              rw [show rl + (bits.length + (rest.takeWhile (· == val)).length) =
                rl + d1.literal_count + (rest.takeWhile (· == val)).length by
                  omega]
              exact he
            · rw [hvs2, (takeWhile_all_append hallbits rest).2]
              exact hr
          · have hlt : (bits.takeWhile (· == val)).length < d1.literal_count := by
              have := length_takeWhile_le (· == val) bits
              omega
            obtain ⟨d3, hscan, hrem3, hrc3, hby3, hpos3⟩ := LS.1 hlt
            have hltb : (bits.takeWhile (· == val)).length < bits.length := by
              omega
            refine ⟨d3, ?_, ?_, Or.inl hrc3⟩
            · unfold RleDecoder.GnrLoop
              simp only [hrh]
              rw [if_neg hrc, if_neg (by omega)]
              simp only [hgf, hscan]
              rw [hvs2, (takeWhile_stop_append rest hltb).1]
            · rw [hvs2, (takeWhile_stop_append rest hltb).2]
              exact hrem3
        · intro v rest0 heq
          obtain ⟨n', hn'⟩ : ∃ n', d1.literal_count = n' + 1 :=
            ⟨d1.literal_count - 1, by omega⟩
          obtain ⟨b, bits', hbitseq, hgb, hbits'⟩ := readBitsR_succ (hn' ▸ hbits)
          have hsplit : v = b ∧ rest0 = bits' ++ rest := by
            rw [hvs2, hbitseq] at heq
            simp only [List.cons_append, List.cons.injEq] at heq
            exact ⟨heq.1.symm, heq.2.symm⟩
          obtain ⟨hv, hrest0⟩ := hsplit
          have hgf : RleDecoder.GnrFirst val 0 d1 = some (b, 1, { d1 with pos := d1.pos + 1, literal_count := d1.literal_count - 1 }) := by
            unfold RleDecoder.GnrFirst
            rw [if_pos rfl]
            simp [hgb]
          have hb2 : readBitsR d1.bytes (d1.literal_count - 1) (d1.pos + 1) =
              some bits' := by
            rw [show d1.literal_count - 1 = n' by omega]
            exact hbits'
          have hrest2 : parseFrom d1.bytes (d1.bytes.length + 1)
              (d1.pos + 1 + (d1.literal_count - 1)) = some rest := by
            rw [show d1.pos + 1 + (d1.literal_count - 1) =
              d1.pos + d1.literal_count by omega]
            exact hrest
          have hblen2 : bits'.length = d1.literal_count - 1 := by
            have := readBitsR_length hbits'
            omega
          have LS := LitScan_rem b (d1.literal_count - 1) 1 { d1 with pos := d1.pos + 1, literal_count := d1.literal_count - 1 } bits' rest hrc1 rfl hb2 hrest2
          by_cases hfull : (bits'.takeWhile (· == b)).length = d1.literal_count - 1
          · obtain ⟨d3, hscan, hrem3, hrc3, hlc3, hby3, hpos3⟩ := LS.2 hfull
            have hallbits : ∀ x ∈ bits', (x == b) = true :=
              all_of_takeWhile_full (by omega)
            have hm3 : mGnr d3 < f := by
              have hp3 : d3.pos = d1.pos + 1 + (d1.literal_count - 1) := hpos3
              have hb3 : d3.bytes = d.bytes := by rw [hby3]; exact hbyteq
              unfold mGnr
              rw [if_pos ⟨hlc3, hrc3⟩, hb3, hp3]
              have hdiv : d1.pos / 8 ≤ (d1.pos + 1 + (d1.literal_count - 1)) / 8 :=
                Nat.div_le_div_right (by omega)
              omega
            obtain ⟨d', he, hr, hi⟩ :=
              (ih d3 rest b (1 + (d1.literal_count - 1)) (Or.inl hrc3) hrem3
                hm3).1 (by omega)
            refine ⟨d', ?_, ?_, hi⟩
            · unfold RleDecoder.GnrLoop
              simp only [hrh]
              rw [if_neg hrc, if_neg (by omega)]
              simp only [hgf]
              simp only [hscan]
              rw [hv, hrest0, (takeWhile_all_append hallbits rest).1]
              rw [List.length_append]
              rw [show 1 + (bits'.length + (rest.takeWhile (· == b)).length) =
                1 + (d1.literal_count - 1) +
                  (rest.takeWhile (· == b)).length by omega]
              exact he
            · rw [hv, hrest0, (takeWhile_all_append hallbits rest).2]
              exact hr
          · have hlt : (bits'.takeWhile (· == b)).length < d1.literal_count - 1 := by
              have h1 := length_takeWhile_le (· == b) bits'
              omega
            obtain ⟨d3, hscan, hrem3, hrc3, hby3, hpos3⟩ := LS.1 hlt
            have hltb : (bits'.takeWhile (· == b)).length < bits'.length := by
              omega
            refine ⟨d3, ?_, ?_, Or.inl hrc3⟩
            · unfold RleDecoder.GnrLoop
              simp only [hrh]
              rw [if_neg hrc, if_neg (by omega)]
              simp only [hgf]
              simp only [hscan]
              rw [hv, hrest0, (takeWhile_stop_append rest hltb).1]
            · rw [hv, hrest0, (takeWhile_stop_append rest hltb).2]
              exact hrem3
        · intro hnil
          exact absurd hnil hvs

end Rle

namespace Rle

theorem length_dropWhile_le (p : Bool → Bool) :
    ∀ l : List Bool, (l.dropWhile p).length ≤ l.length := by
  intro l
  induction l with
  | nil => simp
  | cons a t ih =>
    by_cases hpa : p a
    · rw [List.dropWhile_cons, if_pos hpa]
      simp only [List.length_cons]
      omega
    · rw [List.dropWhile_cons, if_neg hpa]

theorem dropWhile_head_false (p : Bool → Bool) :
    ∀ (l : List Bool) (x : Bool) (xs : List Bool),
      l.dropWhile p = x :: xs → p x = false := by
  intro l
  induction l with
  | nil =>
    intro x xs h
    simp at h
  | cons a t ih =>
    intro x xs h
    by_cases hpa : p a
    · rw [List.dropWhile_cons, if_pos hpa] at h
      exact ih x xs h
    · rw [List.dropWhile_cons, if_neg hpa] at h
      cases h
      simp only [Bool.not_eq_true] at hpa
      exact hpa

/-- `GetNextRun` on a state representing `vs`: on a nonempty `vs` it
returns the head value with the full length of the first maximal run and a
state representing the rest; on empty `vs` it reports eof. -/
theorem GetNextRun_rem {d : RleDecoder} {vs : List Bool}
    (hinv : d.inv) (hrem : d.rem = some vs) :
    (∀ v rest, vs = v :: rest →
      ∃ d', d.GetNextRun = .ok (v, 1 + (rest.takeWhile (· == v)).length, d') ∧
        d'.rem = some (rest.dropWhile (· == v)) ∧ d'.inv) ∧
    (vs = [] → ∃ d', d.GetNextRun = .eof d' ∧ d'.rem = some [] ∧ d'.inv) := by
  have hm : mGnr d < 2 * d.bytes.length + 2 := by
    have := mGnr_le d
    omega
  have H := GnrLoop_rem (2 * d.bytes.length + 2) d vs false 0 hinv hrem hm
  exact ⟨H.2.1, H.2.2⟩

/-- Iterating `GetNextRun` from any state of the data model yields a run
list that concatenates back to the remaining values, has only positive
lengths, and never repeats a value across adjacent runs. -/
theorem runsFrom_spec :
    ∀ (k : Nat) (d : RleDecoder) (vs : List Bool),
      d.inv → d.rem = some vs → vs.length < k →
      ∃ rs, runsFrom k d = some rs ∧ joinRuns rs = vs ∧
        (∀ r ∈ rs, 0 < r.2) ∧
        List.Chain' (fun a b : Bool × Nat => a.1 ≠ b.1) rs := by
  intro k
  induction k with
  | zero =>
    intro d vs _ _ h
    exact absurd h (Nat.not_lt_zero _)
  | succ k ih =>
    intro d vs hinv hrem hlen
    cases vs with
    | nil =>
      obtain ⟨d', he, _, _⟩ := (GetNextRun_rem hinv hrem).2 rfl
      refine ⟨[], ?_, rfl, by simp, by simp⟩
      unfold runsFrom
      simp only [he]
    | cons v rest =>
      obtain ⟨d', he, hr, hi⟩ := (GetNextRun_rem hinv hrem).1 v rest rfl
      have hlen' : (rest.dropWhile (· == v)).length < k := by
        have h1 := length_dropWhile_le (· == v) rest
        simp only [List.length_cons] at hlen
        omega
      obtain ⟨rs', hruns, hjoin, hpos, hchain⟩ := ih d' _ hi hr hlen'
      refine ⟨(v, 1 + (rest.takeWhile (· == v)).length) :: rs', ?_, ?_, ?_, ?_⟩
      · unfold runsFrom
        simp only [he]
        rw [hruns]
        rfl
      · show List.replicate (1 + (rest.takeWhile (· == v)).length) v ++
          joinRuns rs' = v :: rest
        rw [hjoin]
        have htw : rest.takeWhile (· == v) =
            List.replicate (rest.takeWhile (· == v)).length v := by
          apply List.eq_replicate_of_mem
          intro b hb
          have hpb := List.mem_takeWhile_imp hb
          simpa using hpb
        rw [show 1 + (rest.takeWhile (· == v)).length =
          (rest.takeWhile (· == v)).length + 1 by omega]
        rw [List.replicate_succ, List.cons_append, ← htw,
          List.takeWhile_append_dropWhile]
      · intro r hrm
        rcases List.mem_cons.mp hrm with h | h
        · rw [h]
          show 0 < 1 + (rest.takeWhile (· == v)).length
          omega
        · exact hpos r h
      · rw [List.chain'_cons']
        refine ⟨?_, hchain⟩
        intro b hb
        cases hrs' : rs' with
        | nil =>
          rw [hrs'] at hb
          simp at hb
        | cons q rs2 =>
          obtain ⟨w, m⟩ := q
          rw [hrs'] at hb hjoin hpos
          have hb' : b = (w, m) := by
            simp only [List.head?_cons] at hb
            exact (Option.mem_some_iff.mp hb).symm
          have hm0 : 0 < m := hpos (w, m) (by simp)
          obtain ⟨m', hm'⟩ : ∃ m', m = m' + 1 := ⟨m - 1, by omega⟩
          have hdw : rest.dropWhile (· == v) =
              w :: (List.replicate m' w ++ joinRuns rs2) := by
            rw [← hjoin]
            show List.replicate m w ++ joinRuns rs2 = _
            rw [hm', List.replicate_succ, List.cons_append]
          have hfw := dropWhile_head_false (· == v) rest w _ hdw
          have hwv : w ≠ v := by simpa using hfw
          rw [hb']
          show v ≠ w
          exact Ne.symm hwv

/-- C4: for every stream that the wire-format parse decodes to a value
sequence `vs`, iterating `GetNextRun` succeeds and returns `(value,
length)` runs that partition `vs` into maximal same-value runs: their
concatenation is `vs`, every length is positive, and no two adjacent runs
share a value. -/
theorem C4_theorem (bytes : List Nat) (vs : List Bool)
    (h : specDecode bytes = some vs) :
    ∃ rs, runsFrom (vs.length + 1) (RleDecoder.init bytes) = some rs ∧
      joinRuns rs = vs ∧ (∀ r ∈ rs, 0 < r.2) ∧
      List.Chain' (fun a b : Bool × Nat => a.1 ≠ b.1) rs := by
  apply runsFrom_spec
  · exact Or.inl rfl
  · rw [rem_init]
    exact h
  · omega

theorem C4_witness :
    specDecode [2, 1] = some [true] ∧
    (∃ rs, runsFrom 2 (RleDecoder.init [2, 1]) = some rs ∧
      joinRuns rs = [true] ∧ (∀ r ∈ rs, 0 < r.2) ∧
      List.Chain' (fun a b : Bool × Nat => a.1 ≠ b.1) rs) :=
  ⟨by decide, C4_theorem [2, 1] [true] (by decide)⟩

end Rle
